import Mathlib

/-!
Verification of `.github/near_core_changelog_update.py` from
aurora-is-near/borealis-engine-lib.

The script is modelled shallowly: text is `List Char`, each Python helper
becomes an executable Lean function, and the handful of regular expressions
the script uses are embedded as explicit first-match scanners that follow
Python `re` semantics for exactly those patterns (leftmost match, greedy
character-class runs, `^` in MULTILINE mode matching at offset 0 or right
after a newline, `$` matching at the end of the string or just before a
single trailing newline, `re.sub` replacing every non-overlapping match from
left to right and never rescanning replacement text).  `exit(1)` paths become
explicit `fail` outcomes, the single `write_text` call becomes the payload of
a `success` outcome, and environment variables become `Option (List Char)`
arguments (Python treats an unset variable and an empty string the same way
through `if not v`).  The wall-clock date is passed as a parameter; the
`CHANGELOG_PATH` override only selects which file is read, so the file
content is likewise a parameter.
-/

set_option maxRecDepth 20000

/-- Convert a string literal to the `List Char` representation used throughout. -/
def strL (s : String) : List Char := s.data

/-- Characters matched by `[\d\.]` in `VERSION_PATTERN` (ASCII reading of `\d`). -/
def isVChar (c : Char) : Bool := c.isDigit || c == '.'

/-- Characters matched by `[a-z]`. -/
def isLowerAZ (c : Char) : Bool := 'a' ≤ c && c ≤ 'z'

/-- Characters matched by `[\d\.\-a-z]` in `RELEASE_ENTRY_PATTERN`. -/
def isRelChar (c : Char) : Bool := c.isDigit || c == '.' || c == '-' || isLowerAZ c

/-- Whitespace for Python's `\s` and `str.strip` (ASCII reading). -/
def isPyWs (c : Char) : Bool :=
  c == ' ' || c == '\t' || c == '\n' || c == '\r' || c == '\x0b' || c == '\x0c'

/-- Python `str.lstrip()`. -/
def pyLstrip (s : List Char) : List Char := s.dropWhile isPyWs

/-- Python `str.strip()`. -/
def pyStrip (s : List Char) : List Char :=
  ((s.dropWhile isPyWs).reverse.dropWhile isPyWs).reverse

/-- Scan positions `start, start+1, ...` (at most `fuel` of them) for the first
position satisfying `p`; this is the shared engine for all leftmost regex
searches below. -/
def findFrom (p : Nat → Bool) : Nat → Nat → Option Nat
  | _, 0 => none
  | i, fuel + 1 => if p i then some i else findFrom p (i + 1) fuel

/-- Test whether some suffix of the text satisfies `p` (used for unanchored
`re.search` existence checks). -/
def existsSuffix (p : List Char → Bool) : List Char → Bool
  | [] => p []
  | c :: rest => p (c :: rest) || existsSuffix p rest

/-- Position of the first occurrence of `pat` as a substring (an unanchored
`re.search` on a literal pattern). -/
def findSub (s pat : List Char) : Option Nat :=
  findFrom (fun i => pat.isPrefixOf (s.drop i)) 0 (s.length + 1)

/-- Whether position `i` is at the start of a line, as `^` in `re.MULTILINE`
sees it: offset 0 or immediately after a newline character. -/
def lineStartB (s : List Char) (i : Nat) : Bool :=
  i == 0 || (s.drop (i - 1)).head? == some '\n'

theorem findFrom_eq_some {p : Nat → Bool} {i fuel j : Nat}
    (h : findFrom p i fuel = some j) :
    p j = true ∧ i ≤ j ∧ ∀ k, i ≤ k → k < j → p k = false := by
  induction fuel generalizing i with
  | zero => simp [findFrom] at h
  | succ fuel ih =>
    rw [findFrom] at h
    by_cases hp : p i = true
    · simp [hp] at h
      subst h
      exact ⟨hp, le_refl _, fun k hk hk2 => absurd hk (by omega)⟩
    · simp [hp] at h
      obtain ⟨hj, hij, hmin⟩ := ih h
      refine ⟨hj, by omega, fun k hk hk2 => ?_⟩
      rcases Nat.eq_or_lt_of_le hk with rfl | hlt
      · simpa using hp
      · exact hmin k hlt hk2

theorem findFrom_eq_none {p : Nat → Bool} {i fuel : Nat}
    (h : findFrom p i fuel = none) :
    ∀ k, i ≤ k → k < i + fuel → p k = false := by
  induction fuel generalizing i with
  | zero => intro k hk hk2; omega
  | succ fuel ih =>
    rw [findFrom] at h
    by_cases hp : p i = true
    · simp [hp] at h
    · simp [hp] at h
      intro k hk hk2
      rcases Nat.eq_or_lt_of_le hk with rfl | hlt
      · simpa using hp
      · exact ih h k hlt (by omega)

theorem findFrom_isSome {p : Nat → Bool} {i fuel w : Nat}
    (hw : p w = true) (h1 : i ≤ w) (h2 : w < i + fuel) :
    ∃ j, findFrom p i fuel = some j ∧ j ≤ w := by
  cases hf : findFrom p i fuel with
  | none => exact absurd (findFrom_eq_none hf w h1 h2) (by simp [hw])
  | some j =>
    refine ⟨j, rfl, ?_⟩
    by_contra hlt
    exact absurd ((findFrom_eq_some hf).2.2 w h1 (by omega)) (by simp [hw])

theorem findFrom_none_of_false {p : Nat → Bool} {i fuel : Nat}
    (h : ∀ k, p k = false) : findFrom p i fuel = none := by
  induction fuel generalizing i with
  | zero => rfl
  | succ fuel ih => rw [findFrom]; simp [h i, ih]

theorem existsSuffix_eq_true {p : List Char → Bool} {s : List Char}
    (h : existsSuffix p s = true) : ∃ j, p (s.drop j) = true := by
  induction s with
  | nil => exact ⟨0, h⟩
  | cons c rest ih =>
    rw [existsSuffix] at h
    rcases Bool.or_eq_true_iff.mp h with h1 | h2
    · exact ⟨0, h1⟩
    · obtain ⟨j, hj⟩ := ih h2
      exact ⟨j + 1, by simpa using hj⟩

theorem existsSuffix_eq_false {p : List Char → Bool} {s : List Char}
    (h : existsSuffix p s = false) : ∀ j, p (s.drop j) = false := by
  induction s with
  | nil => intro j; simpa using h
  | cons c rest ih =>
    rw [existsSuffix] at h
    rcases Bool.or_eq_false_iff.mp h with ⟨h1, h2⟩
    intro j
    cases j with
    | zero => exact h1
    | succ j => simpa using ih h2 j

theorem existsSuffix_of_drop {p : List Char → Bool} {s : List Char} {j : Nat}
    (h : p (s.drop j) = true) : existsSuffix p s = true := by
  by_contra hf
  have := existsSuffix_eq_false (Bool.eq_false_iff.mpr hf) j
  simp [h] at this

theorem findSub_isSome_of {s pat u v : List Char} (h : s = u ++ pat ++ v) :
    ∃ j, findSub s pat = some j ∧ j ≤ u.length := by
  have hp : pat.isPrefixOf (s.drop u.length) = true := by
    rw [h, List.append_assoc, List.drop_left]
    exact List.isPrefixOf_iff_prefix.mpr ⟨v, rfl⟩
  have hlen : u.length < s.length + 1 := by
    rw [h]; simp; omega
  exact findFrom_isSome hp (Nat.zero_le _) (by omega)

theorem findSub_eq_some {s pat : List Char} {j : Nat} (h : findSub s pat = some j) :
    pat <+: s.drop j ∧ ∀ k < j, ¬ (pat <+: s.drop k) := by
  obtain ⟨hj, _, hmin⟩ := findFrom_eq_some h
  refine ⟨List.isPrefixOf_iff_prefix.mp hj, fun k hk hpre => ?_⟩
  have hb := hmin k (Nat.zero_le _) hk
  rw [← List.isPrefixOf_iff_prefix, hb] at hpre
  exact absurd hpre (by simp)

theorem findSub_eq_none {s pat : List Char}
    (h : findSub s pat = none) : ∀ u v, s ≠ u ++ pat ++ v := by
  intro u v heq
  obtain ⟨j, hj, _⟩ := findSub_isSome_of heq
  rw [h] at hj
  exact absurd hj (by simp)

theorem prefix_drop_decomp {s pat : List Char} {j : Nat}
    (hj : j ≤ s.length) (h : pat <+: s.drop j) :
    ∃ v, s = s.take j ++ pat ++ v ∧ (s.take j).length = j := by
  obtain ⟨v, hv⟩ := h
  refine ⟨v, ?_, List.length_take_of_le hj⟩
  conv_lhs => rw [← List.take_append_drop j s, ← hv]
  simp

/-- Python `re.sub` on patterns that never match the empty string: `f s`
decides whether a match starts at the head of `s`, returning the match length
and the full replacement text.  Scanning is leftmost, non-overlapping, resumes
after each match, and never rescans replacement text.  The `fuel` argument
only drives structural recursion; it is always at least the text length. -/
def gsubGo (f : List Char → Option (Nat × List Char)) : Nat → List Char → List Char
  | _, [] => []
  | 0, c :: rest => c :: rest
  | fuel + 1, c :: rest =>
    match f (c :: rest) with
    | some (n + 1, repl) => repl ++ gsubGo f fuel (rest.drop n)
    | _ => c :: gsubGo f fuel rest

/-- Python `re.sub`, with the fuel instantiated to the text length. -/
def gsub (f : List Char → Option (Nat × List Char)) (s : List Char) : List Char :=
  gsubGo f s.length s

theorem gsubGo_succ_none {f : List Char → Option (Nat × List Char)} {fuel : Nat}
    {c : Char} {rest : List Char} (h : f (c :: rest) = none) :
    gsubGo f (fuel + 1) (c :: rest) = c :: gsubGo f fuel rest := by
  rw [gsubGo, h]

theorem gsubGo_succ_zero {f : List Char → Option (Nat × List Char)} {fuel : Nat}
    {c : Char} {rest repl : List Char} (h : f (c :: rest) = some (0, repl)) :
    gsubGo f (fuel + 1) (c :: rest) = c :: gsubGo f fuel rest := by
  rw [gsubGo, h]

theorem gsubGo_succ_match {f : List Char → Option (Nat × List Char)} {fuel n : Nat}
    {c : Char} {rest repl : List Char} (h : f (c :: rest) = some (n + 1, repl)) :
    gsubGo f (fuel + 1) (c :: rest) = repl ++ gsubGo f fuel (rest.drop n) := by
  rw [gsubGo, h]

theorem gsubGo_congr (f : List Char → Option (Nat × List Char)) :
    ∀ (fuel fuel2 : Nat) (s : List Char), s.length ≤ fuel → s.length ≤ fuel2 →
      gsubGo f fuel s = gsubGo f fuel2 s := by
  intro fuel
  induction fuel with
  | zero =>
    intro fuel2 s hs _
    have hnil : s = [] := by
      cases s with
      | nil => rfl
      | cons c r => simp at hs
    subst hnil
    cases fuel2 <;> rfl
  | succ fuel ih =>
    intro fuel2 s hs hs2
    cases s with
    | nil => cases fuel2 <;> rfl
    | cons c rest =>
      cases fuel2 with
      | zero => simp at hs2
      | succ fuel2 =>
        simp only [List.length_cons] at hs hs2
        cases hf : f (c :: rest) with
        | none =>
          rw [gsubGo_succ_none hf, gsubGo_succ_none hf,
            ih fuel2 rest (by omega) (by omega)]
        | some pr =>
          rcases pr with ⟨n, repl⟩
          cases n with
          | zero =>
            rw [gsubGo_succ_zero hf, gsubGo_succ_zero hf,
              ih fuel2 rest (by omega) (by omega)]
          | succ n =>
            rw [gsubGo_succ_match hf, gsubGo_succ_match hf,
              ih fuel2 (rest.drop n) (by simp [List.length_drop]; omega)
                (by simp [List.length_drop]; omega)]

theorem gsub_nil (f : List Char → Option (Nat × List Char)) : gsub f [] = [] := rfl

theorem gsub_cons_none {f : List Char → Option (Nat × List Char)} {c : Char}
    {rest : List Char} (h : f (c :: rest) = none) :
    gsub f (c :: rest) = c :: gsub f rest := by
  rw [gsub, gsub, List.length_cons, gsubGo_succ_none h]

theorem gsub_cons_match {f : List Char → Option (Nat × List Char)} {c : Char}
    {rest repl : List Char} {n : Nat} (h : f (c :: rest) = some (n + 1, repl)) :
    gsub f (c :: rest) = repl ++ gsub f (rest.drop n) := by
  rw [gsub, gsub, List.length_cons, gsubGo_succ_match h,
    gsubGo_congr f rest.length (rest.drop n).length (rest.drop n)
      (by simp [List.length_drop]) (le_refl _)]

theorem gsub_no_match {f : List Char → Option (Nat × List Char)} :
    ∀ {s : List Char}, (∀ j, f (s.drop j) = none) → gsub f s = s := by
  intro s
  induction s with
  | nil => intro _; exact gsub_nil f
  | cons c rest ih =>
    intro h
    rw [gsub_cons_none (h 0)]
    exact congrArg (c :: ·) (ih (fun j => h (j + 1)))

/-- The constant `REPO_URL` from the script. -/
def REPO_URL : List Char := strL "https://github.com/aurora-is-near/borealis-engine-lib"

/-- Backtracking semantics of `cls+` for a character class `cls`, continued by
`k`: some nonempty run of `p`-characters is consumed and `k` accepts the rest. -/
def tryMany1 (p : Char → Bool) (k : List Char → Bool) : List Char → Bool
  | [] => false
  | c :: rest => p c && (k rest || tryMany1 p k rest)

/-- Python `$` (without MULTILINE): end of input, or just before one final
newline. -/
def endDollar (s : List Char) : Bool := s.isEmpty || s == ['\n']

/-- Continuation `\.\d+$` inside the optional group. -/
def dotDigits (s : List Char) : Bool :=
  match s with
  | c :: s1 => c == '.' && tryMany1 Char.isDigit endDollar s1
  | [] => false

/-- The optional suffix `(\-[a-z]+\.\d+)?$` of `VERSION_PATTERN`, starting at
the text right after the second `[\d\.]+` group. -/
def optTail (s : List Char) : Bool :=
  match s with
  | c :: s1 => c == '-' && tryMany1 isLowerAZ dotDigits s1
  | [] => false

/-- Continuation after the two `[\d\.]+` groups: take the optional group or
skip it, then `$`. -/
def afterGroups (s : List Char) : Bool := optTail s || endDollar s

/-- Continuation `\-[\d\.]+...` after the first `[\d\.]+` group. -/
def dashGroups (s : List Char) : Bool :=
  match s with
  | c :: s1 => c == '-' && tryMany1 isVChar afterGroups s1
  | [] => false

/-- The script's `validate_version`: `re.match` of
`VERSION_PATTERN = ^[\d\.]+\-[\d\.]+(\-[a-z]+\.\d+)?$` after the falsy check. -/
def validate_version (s : List Char) : Bool :=
  if s.isEmpty then false
  else tryMany1 isVChar dashGroups s

/-- Python `str.split(sep)` for a one-character separator. -/
def splitOnChar (sep : Char) : List Char → List (List Char)
  | [] => [[]]
  | c :: rest =>
    match splitOnChar sep rest with
    | [] => [[]]
    | g :: gs => if c == sep then [] :: g :: gs else (c :: g) :: gs

/-- Python `sep.join(groups)` for a one-character separator. -/
def joinWith (sep : Char) : List (List Char) → List Char
  | [] => []
  | [g] => g
  | g :: gs => g ++ sep :: joinWith sep gs

/-- The script's `extract_nearcore_version`:
`'-'.join(version.split('-')[1:]) if '-' in version else version`. -/
def extract_nearcore_version (v : List Char) : List Char :=
  if v.contains '-' then joinWith '-' ((splitOnChar '-' v).drop 1) else v

/-- First position where `^(?=\[Unreleased\]:)` (MULTILINE) matches, i.e. the
first line-start occurrence of `[Unreleased]:`. -/
def linkSplitIdx (content : List Char) : Option Nat :=
  findFrom (fun i =>
    lineStartB content i && (strL "[Unreleased]:").isPrefixOf (content.drop i))
    0 (content.length + 1)

/-- The script's `split_changelog_content`: split at the first link-definition
line, or exit with status 1. -/
def split_changelog_content (content : List Char) :
    Except (List Char) (List Char × List Char) :=
  match linkSplitIdx content with
  | none => .error (strL "Error: Could not find the link definitions section in CHANGES.md")
  | some i => .ok (content.take i, content.drop i)

/-- First line-start occurrence of `## [Unreleased]`
(`UNRELEASED_SECTION_PATTERN` with MULTILINE), as in `find_unreleased_section`. -/
def unreleasedIdx (upper : List Char) : Option Nat :=
  findFrom (fun i =>
    lineStartB upper i && (strL "## [Unreleased]").isPrefixOf (upper.drop i))
    0 (upper.length + 1)

/-- Anchored match of `## \[([\d\.\-a-z]+)\]` at the head of `s` (line-start
anchoring is checked by the caller). -/
def relMatchB (s : List Char) : Bool :=
  (strL "## [").isPrefixOf s &&
    (let g := (s.drop 4).takeWhile isRelChar
     !g.isEmpty && (s.drop (4 + g.length)).head? == some ']')

/-- The captured version label of a `relMatchB` match. -/
def relLabel (s : List Char) : List Char := (s.drop 4).takeWhile isRelChar

/-- The script's `find_previous_version` scan: the first match of
`RELEASE_ENTRY_PATTERN` (MULTILINE) in `upper` at or after `pos`, with its
captured label. -/
def releaseSearch (upper : List Char) (pos : Nat) : Option (Nat × List Char) :=
  match findFrom (fun i => lineStartB upper i && relMatchB (upper.drop i))
      pos (upper.length + 1 - pos) with
  | none => none
  | some k => some (k, relLabel (upper.drop k))

/-- Anchored match of `CHANGES_SECTION_PATTERN = #+\s+Changes` at the head of
`s`, returning the match length.  The `#` run and the `\s` run are forced to
be maximal because neither class can match the character that follows it. -/
def changesMatchLen (s : List Char) : Option Nat :=
  let h := s.takeWhile (fun c => c == '#')
  if h.isEmpty then none
  else
    let w := (s.drop h.length).takeWhile isPyWs
    if w.isEmpty then none
    else if (strL "Changes").isPrefixOf (s.drop (h.length + w.length)) then
      some (h.length + w.length + 7)
    else none

/-- End offset of the leftmost `#+\s+Changes` match in `s` (the script's
`changes_match.end()`). -/
def changesSearch (s : List Char) : Option Nat :=
  match findFrom (fun i => (changesMatchLen (s.drop i)).isSome) 0 (s.length + 1) with
  | none => none
  | some i => some (i + (changesMatchLen (s.drop i)).getD 0)

/-- The script's `create_new_entry`. -/
def create_new_entry (unreleased_content new_entry : List Char) : List Char :=
  if unreleased_content.isEmpty then strL "### Changes\n\n" ++ new_entry
  else
    match changesSearch unreleased_content with
    | some e =>
      unreleased_content.take e ++ strL "\n\n" ++ new_entry ++ '\n'
        :: pyLstrip (unreleased_content.drop e)
    | none => strL "### Changes\n\n" ++ new_entry ++ strL "\n\n" ++ unreleased_content

/-- The literal middle part of `PR_LINK_PATTERN` between the two digit runs. -/
def prLinkLit : List Char := strL "]: " ++ REPO_URL ++ strL "/pull/"

/-- Anchored match of `PR_LINK_PATTERN = \[#\d+\]: <repo-url>/pull/\d+` at the
head of `s`. -/
def prLinkAt (s : List Char) : Bool :=
  match s with
  | c0 :: c1 :: r =>
    let d := r.takeWhile Char.isDigit
    c0 == '[' && c1 == '#' && !d.isEmpty && prLinkLit.isPrefixOf (r.drop d.length) &&
      !((r.drop (d.length + prLinkLit.length)).takeWhile Char.isDigit).isEmpty
  | _ => false

/-- The `re.search(PR_LINK_PATTERN, content)` existence test of `add_pr_link`. -/
def hasPrLink (content : List Char) : Bool := existsSuffix prLinkAt content

/-- The script's `add_pr_link`. -/
def add_pr_link (content pr_link : List Char) : List Char :=
  if hasPrLink content then content ++ '\n' :: pr_link
  else content ++ '\n' :: '\n' :: pr_link

/-- Replacement text of the first `re.sub` in `update_link_definitions`. -/
def unrelRepl (nv : List Char) : List Char :=
  strL "[Unreleased]: " ++ REPO_URL ++ '/' :: nv ++ strL "...main"

/-- The inserted line `[<new-version>]: <repo-url>/compare/<prev>...<new>`. -/
def newLinkDef (nv pv : List Char) : List Char :=
  '[' :: nv ++ strL "]: " ++ REPO_URL ++ strL "/compare/" ++ pv ++ strL "..." ++ nv

/-- Head match for `re.sub(r'\[Unreleased\]: .*', ...)`: the literal label and
the rest of the line (`.` does not match newline). -/
def sub1Match (nv : List Char) (s : List Char) : Option (Nat × List Char) :=
  if (strL "[Unreleased]: ").isPrefixOf s then
    some (14 + ((s.drop 14).takeWhile (fun c => c != '\n')).length, unrelRepl nv)
  else none

/-- Head match for `re.sub(r'(\[Unreleased\]: .*\n)', '\1<new-link>\n', ...)`:
the whole line including its newline, kept and followed by the new link line. -/
def sub2Match (nv pv : List Char) (s : List Char) : Option (Nat × List Char) :=
  if (strL "[Unreleased]: ").isPrefixOf s then
    let r := (s.drop 14).takeWhile (fun c => c != '\n')
    if (s.drop (14 + r.length)).head? == some '\n' then
      some (14 + r.length + 1, s.take (14 + r.length + 1) ++ newLinkDef nv pv ++ ['\n'])
    else none
  else none

/-- The script's `update_link_definitions`: two global substitutions. -/
def update_link_definitions (bottom_section nv pv : List Char) : List Char :=
  gsub (sub2Match nv pv) (gsub (sub1Match nv) bottom_section)

/-- Region-end test for `re.sub(r'## \[Unreleased\].*?(?=## \[|$)', ...)` with
DOTALL:  the lazy `.*?` stops at the first position where `## [` follows or
`$` holds (end of text, or just before one final newline). -/
def regionEndB (s : List Char) (q : Nat) : Bool :=
  (strL "## [").isPrefixOf (s.drop q) || q == s.length || s.drop q == ['\n']

/-- The `re.sub(..., empty_unreleased, updated_upper_section, count=1,
flags=re.DOTALL)` step of `update_changelog`: replace the region from the
first occurrence of `## [Unreleased]` up to the next `## [` (or `$`) by an
empty Unreleased heading. -/
def resetUnreleased (s : List Char) : List Char :=
  match findSub s (strL "## [Unreleased]") with
  | none => s
  | some a =>
    match findFrom (fun q => regionEndB s q) (a + 15) (s.length + 1 - (a + 15)) with
    | none => s
    | some b => s.take a ++ strL "## [Unreleased]\n\n" ++ s.drop b

/-- Outcome of one run of the orchestrator: `fail` is `exit(1)` with a message
and no write, `skip` is the benign-duplicate return (status 0, no write),
`success` is the single `write_text` with the new document plus the final
message (status 0). -/
inductive RunOutcome where
  | fail (msg : List Char)
  | skip (msg : List Char)
  | success (msg : List Char) (newContent : List Char)
deriving DecidableEq

/-- Process exit status of an outcome. -/
def exitCode : RunOutcome → Nat
  | .fail _ => 1
  | _ => 0

/-- The bytes written by the run, if any. -/
def fileWritten : RunOutcome → Option (List Char)
  | .success _ c => some c
  | _ => none

/-- The changelog bytes after the run, given the original bytes. -/
def fileAfter (orig : List Char) : RunOutcome → List Char
  | .success _ c => c
  | _ => orig

/-- Python truthiness of an optional environment string. -/
def truthy : Option (List Char) → Bool
  | none => false
  | some s => !s.isEmpty

/-- The literal `## [<version>]` text of the idempotency-guard pattern. -/
def versionHeading (nv : List Char) : List Char := strL "## [" ++ nv ++ [']']

/-- The bullet line composed in `update_changelog`. -/
def mkEntry (nv pr : List Char) : List Char :=
  strL "* chore: bump nearcore to " ++ extract_nearcore_version nv ++
    strL " in [#" ++ pr ++ [']']

/-- The PR link-reference line composed in `update_changelog`. -/
def mkPrLink (pr : List Char) : List Char :=
  strL "[#" ++ pr ++ strL "]: " ++ REPO_URL ++ strL "/pull/" ++ pr

/-- Lines 145-175 of the script: build the merged Unreleased body, the new
release section, the reassembled upper region (with the Unreleased body reset),
the rewritten link region, and concatenate. -/
def assemble (nv pr date upper bottom : List Char) (j k : Nat) (prev : List Char) :
    List Char :=
  resetUnreleased
    (upper.take (j + 15) ++ strL "\n\n" ++
      (strL "## [" ++ nv ++ strL "] " ++ date ++ strL "\n\n" ++
        add_pr_link (create_new_entry
          (pyStrip ((upper.drop (j + 15)).take (k - (j + 15)))) (mkEntry nv pr))
          (mkPrLink pr)) ++
      strL "\n\n" ++ upper.drop k) ++
  update_link_definitions bottom nv prev

/-- Lines 135-178 of `update_changelog`, after the environment checks and the
file read: the idempotency guard, the parsing stages, and the final write. -/
def runOnContent (nv pr content date : List Char) : RunOutcome :=
  if (findSub content (versionHeading nv)).isSome then
    .skip (strL "Version " ++ nv ++ strL " already exists in CHANGES.md, skipping update")
  else
    match split_changelog_content content with
    | .error m => .fail m
    | .ok (upper, bottom) =>
      match unreleasedIdx upper with
      | none => .fail (strL "Error: Could not find [Unreleased] section in CHANGES.md")
      | some j =>
        match releaseSearch upper (j + 15) with
        | none => .fail (strL "Error: Could not find any previous release entries")
        | some (k, prev) =>
          .success (strL "Successfully updated CHANGES.md with new version " ++ nv)
            (assemble nv pr date upper bottom j k prev)

/-- The script's `update_changelog` orchestrator.  `new_version` and
`pr_number` are the environment variables (`none` when unset), `file` is the
changelog content (`none` when the file does not exist), `date` is the current
UTC date string. -/
def update_changelog (new_version pr_number file : Option (List Char))
    (date : List Char) : RunOutcome :=
  if truthy new_version && !validate_version (new_version.getD []) then
    .fail (strL "Error: Invalid version format '" ++ new_version.getD [] ++
      strL "'. Valid formats: 'x.y.z-a.b.c' or 'x.y.z-a.b.c-rc.n'")
  else if !(truthy new_version && truthy pr_number) then
    .fail (strL "Error: NEW_VERSION and PR_NUMBER environment variables must be set")
  else
    match file with
    | none => .fail (strL "Error: CHANGES.md not found")
    | some content => runOnContent (new_version.getD []) (pr_number.getD []) content date

theorem splitOnChar_ne_nil (sep : Char) (s : List Char) : splitOnChar sep s ≠ [] := by
  cases s with
  | nil => simp [splitOnChar]
  | cons c rest =>
    rw [splitOnChar]
    rcases h : splitOnChar sep rest with _ | ⟨g, gs⟩
    · simp
    · by_cases hc : c == sep <;> simp [hc]

theorem joinWith_cons_cons (sep : Char) (g g2 : List Char) (gs : List (List Char)) :
    joinWith sep (g :: g2 :: gs) = g ++ sep :: joinWith sep (g2 :: gs) := rfl

theorem joinWith_splitOnChar (sep : Char) (s : List Char) :
    joinWith sep (splitOnChar sep s) = s := by
  induction s with
  | nil => rfl
  | cons c rest ih =>
    rw [splitOnChar]
    rcases h : splitOnChar sep rest with _ | ⟨g, gs⟩
    · exact absurd h (splitOnChar_ne_nil sep rest)
    · rw [h] at ih
      cases hb : (c == sep) with
      | true =>
        have hcs : c = sep := by simpa using hb
        simp only [hb, if_true, joinWith_cons_cons, List.nil_append, ih, hcs]
      | false =>
        simp only [hb, Bool.false_eq_true, if_false]
        cases gs with
        | nil => simpa [joinWith] using congrArg (c :: ·) ih
        | cons g2 gs2 =>
          rw [joinWith_cons_cons]
          rw [joinWith_cons_cons] at ih
          simpa using congrArg (c :: ·) ih

theorem splitOnChar_append {sep : Char} {a : List Char} (b : List Char)
    (ha : sep ∉ a) : splitOnChar sep (a ++ sep :: b) = a :: splitOnChar sep b := by
  induction a with
  | nil =>
    rw [List.nil_append, splitOnChar]
    rcases h : splitOnChar sep b with _ | ⟨g, gs⟩
    · exact absurd h (splitOnChar_ne_nil sep b)
    · simp
  | cons c a ih =>
    have hc : (c == sep) = false := by
      simp only [beq_eq_false_iff_ne]
      exact fun hce => ha (hce ▸ List.mem_cons_self c a)
    rw [List.cons_append, splitOnChar, ih (fun h => ha (List.mem_cons_of_mem c h)), hc]
    simp

theorem extract_append {a : List Char} (b : List Char) (ha : '-' ∉ a) :
    extract_nearcore_version (a ++ '-' :: b) = b := by
  have hc : (a ++ '-' :: b).contains '-' = true :=
    List.elem_iff.mpr (List.mem_append_right a (List.mem_cons_self _ _))
  rw [extract_nearcore_version, if_pos hc, splitOnChar_append b ha]
  simpa using joinWith_splitOnChar '-' b

theorem extract_no_dash {v : List Char} (hv : '-' ∉ v) :
    extract_nearcore_version v = v := by
  have hc : v.contains '-' = false := by
    rcases h : v.contains '-' with _ | _
    · rfl
    · exact absurd (List.elem_iff.mp h) hv
  rw [extract_nearcore_version, if_neg (by rw [hc]; simp)]

/-- Claim C8: `extract_nearcore_version` strips the leading `<semver>-`
component when a hyphen is present (everything after the first hyphen is kept,
so `1.2.3-4.5.6-rc.1` yields `4.5.6-rc.1`), returns the string unchanged when
no hyphen is present, and the composed bullet line is exactly
`* chore: bump nearcore to <dependency-version> in [#<pr-number>]`. -/
theorem claim_C8 :
    (∀ a b : List Char, '-' ∉ a → extract_nearcore_version (a ++ '-' :: b) = b) ∧
    (∀ v : List Char, '-' ∉ v → extract_nearcore_version v = v) ∧
    (∀ a b pr : List Char, '-' ∉ a →
      mkEntry (a ++ '-' :: b) pr =
        strL "* chore: bump nearcore to " ++ b ++ strL " in [#" ++ pr ++ [']']) := by
  refine ⟨fun a b ha => extract_append b ha, fun v hv => extract_no_dash hv,
    fun a b pr ha => ?_⟩
  rw [mkEntry, extract_append b ha]

/-- Witness for C8 at concrete inputs. -/
theorem claim_C8_witness :
    extract_nearcore_version (strL "1.2.3" ++ '-' :: strL "4.5.6-rc.1") = strL "4.5.6-rc.1" ∧
    mkEntry (strL "1.2.3" ++ '-' :: strL "4.5.6-rc.1") (strL "42") =
      strL "* chore: bump nearcore to 4.5.6-rc.1 in [#42]" :=
  ⟨claim_C8.1 _ _ (by decide), (claim_C8.2.2 _ _ _ (by decide)).trans (by decide)⟩

theorem tryMany1_iff {p : Char → Bool} {k : List Char → Bool} :
    ∀ {s : List Char}, tryMany1 p k s = true ↔
      ∃ u v, s = u ++ v ∧ u ≠ [] ∧ (∀ c ∈ u, p c = true) ∧ k v = true := by
  intro s
  induction s with
  | nil =>
    simp only [tryMany1]
    constructor
    · intro h; exact absurd h (by simp)
    · rintro ⟨u, v, heq, hne, -, -⟩
      exact absurd (List.append_eq_nil.mp heq.symm).1 hne
  | cons c rest ih =>
    rw [tryMany1]
    constructor
    · intro h
      obtain ⟨hp, hor⟩ := Bool.and_eq_true_iff.mp h
      rcases Bool.or_eq_true_iff.mp hor with hk | htr
      · exact ⟨[c], rest, rfl, by simp, by simpa using hp, hk⟩
      · obtain ⟨u, v, heq, hne, hall, hk⟩ := ih.mp htr
        refine ⟨c :: u, v, by rw [List.cons_append, heq], by simp, ?_, hk⟩
        intro x hx
        rcases List.mem_cons.mp hx with rfl | hx2
        · exact hp
        · exact hall x hx2
    · rintro ⟨u, v, heq, hne, hall, hk⟩
      cases u with
      | nil => exact absurd rfl hne
      | cons c2 u2 =>
        rw [List.cons_append] at heq
        injection heq with h1 h2
        subst h1
        rw [Bool.and_eq_true_iff]
        refine ⟨hall c (List.mem_cons_self _ _), Bool.or_eq_true_iff.mpr ?_⟩
        cases u2 with
        | nil => rw [List.nil_append] at h2; exact Or.inl (h2 ▸ hk)
        | cons c3 u3 =>
          exact Or.inr (ih.mpr ⟨c3 :: u3, v, h2, by simp,
            fun x hx => hall x (List.mem_cons_of_mem _ hx), hk⟩)

/-- All characters of the run satisfy the class test. -/
def AllB (p : Char → Bool) (l : List Char) : Prop := ∀ c ∈ l, p c = true

/-- Declarative reading of the spec's version shape
`<digits-and-dots>-<digits-and-dots>` optionally followed by
`-<lowercase-letters>.<digits>`. -/
def VersionShape (s : List Char) : Prop :=
  (∃ a b, s = a ++ '-' :: b ∧ a ≠ [] ∧ b ≠ [] ∧ AllB isVChar a ∧ AllB isVChar b) ∨
  (∃ a b c d, s = a ++ '-' :: (b ++ '-' :: (c ++ '.' :: d)) ∧
    a ≠ [] ∧ b ≠ [] ∧ c ≠ [] ∧ d ≠ [] ∧
    AllB isVChar a ∧ AllB isVChar b ∧ AllB isLowerAZ c ∧ AllB Char.isDigit d)

theorem endDollar_iff {w : List Char} : endDollar w = true ↔ w = [] ∨ w = ['\n'] := by
  rw [endDollar]
  cases w with
  | nil => simp
  | cons c rest => simp

theorem versionShape_ne_nil {s : List Char} (h : VersionShape s) : s ≠ [] := by
  rcases h with ⟨a, b, heq, -⟩ | ⟨a, b, c, d, heq, -⟩ <;>
    · rw [heq]; simp

theorem dashGroups_iff {v : List Char} :
    dashGroups v = true ↔ ∃ s2, v = '-' :: s2 ∧ tryMany1 isVChar afterGroups s2 = true := by
  cases v with
  | nil => simp [dashGroups]
  | cons c s1 =>
    rw [dashGroups, Bool.and_eq_true_iff]
    constructor
    · rintro ⟨hc, ht⟩
      exact ⟨s1, by rw [show c = '-' from by simpa using hc], ht⟩
    · rintro ⟨s2, heq, ht⟩
      injection heq with h1 h2
      subst h1; subst h2
      exact ⟨by simp, ht⟩

theorem optTail_iff {v : List Char} :
    optTail v = true ↔ ∃ s2, v = '-' :: s2 ∧ tryMany1 isLowerAZ dotDigits s2 = true := by
  cases v with
  | nil => simp [optTail]
  | cons c s1 =>
    rw [optTail, Bool.and_eq_true_iff]
    constructor
    · rintro ⟨hc, ht⟩
      exact ⟨s1, by rw [show c = '-' from by simpa using hc], ht⟩
    · rintro ⟨s2, heq, ht⟩
      injection heq with h1 h2
      subst h1; subst h2
      exact ⟨by simp, ht⟩

theorem dotDigits_iff {v : List Char} :
    dotDigits v = true ↔ ∃ s2, v = '.' :: s2 ∧ tryMany1 Char.isDigit endDollar s2 = true := by
  cases v with
  | nil => simp [dotDigits]
  | cons c s1 =>
    rw [dotDigits, Bool.and_eq_true_iff]
    constructor
    · rintro ⟨hc, ht⟩
      exact ⟨s1, by rw [show c = '.' from by simpa using hc], ht⟩
    · rintro ⟨s2, heq, ht⟩
      injection heq with h1 h2
      subst h1; subst h2
      exact ⟨by simp, ht⟩

theorem versionShape_no_newline {s : List Char} (h : VersionShape s) : '\n' ∉ s := by
  intro hmem
  rcases h with ⟨a, b, heq, -, -, halla, hallb⟩ |
    ⟨a, b, c, d, heq, -, -, -, -, halla, hallb, hallc, halld⟩
  · rw [heq] at hmem
    rcases List.mem_append.mp hmem with h1 | h2
    · exact absurd (halla _ h1) (by decide)
    · rcases List.mem_cons.mp h2 with h3 | h4
      · exact absurd h3 (by decide)
      · exact absurd (hallb _ h4) (by decide)
  · rw [heq] at hmem
    rcases List.mem_append.mp hmem with h1 | h2
    · exact absurd (halla _ h1) (by decide)
    rcases List.mem_cons.mp h2 with h3 | h4
    · exact absurd h3 (by decide)
    rcases List.mem_append.mp h4 with h5 | h6
    · exact absurd (hallb _ h5) (by decide)
    rcases List.mem_cons.mp h6 with h7 | h8
    · exact absurd h7 (by decide)
    rcases List.mem_append.mp h8 with h9 | h10
    · exact absurd (hallc _ h9) (by decide)
    rcases List.mem_cons.mp h10 with h11 | h12
    · exact absurd h11 (by decide)
    · exact absurd (halld _ h12) (by decide)

/-- Claim C7 (amended): `validate_version` accepts exactly the strings of the
shape `<digits-and-dots>-<digits-and-dots>` optionally followed by
`-<lowercase-letters>.<digits>`, possibly followed by one trailing newline
(Python `$` also matches just before a final newline); empty input is
rejected, as is every other string. -/
theorem claim_C7 (s : List Char) :
    validate_version s = true ↔
      (VersionShape s ∨ ∃ t, s = t ++ ['\n'] ∧ VersionShape t) := by
  constructor
  · intro h
    rw [validate_version] at h
    by_cases he : s.isEmpty
    · rw [if_pos he] at h; exact absurd h (by simp)
    rw [if_neg he] at h
    obtain ⟨a, v, heq, ha, halla, hk⟩ := tryMany1_iff.mp h
    obtain ⟨s2, hv, ht⟩ := dashGroups_iff.mp hk
    obtain ⟨b, w, heq2, hb, hallb, hw⟩ := tryMany1_iff.mp ht
    subst hv; subst heq2
    rcases Bool.or_eq_true_iff.mp hw with hopt | hend
    · obtain ⟨s3, hw3, ht3⟩ := optTail_iff.mp hopt
      obtain ⟨c, x, heq3, hc, hallc, hx⟩ := tryMany1_iff.mp ht3
      obtain ⟨s5, hx5, ht5⟩ := dotDigits_iff.mp hx
      obtain ⟨d, y, heq4, hd, halld, hy⟩ := tryMany1_iff.mp ht5
      subst hw3; subst heq3; subst hx5; subst heq4
      rcases endDollar_iff.mp hy with rfl | rfl
      · refine Or.inl (Or.inr ⟨a, b, c, d, ?_, ha, hb, hc, hd, halla, hallb, hallc, halld⟩)
        rw [heq]; simp
      · refine Or.inr ⟨a ++ '-' :: (b ++ '-' :: (c ++ '.' :: d)), ?_,
          Or.inr ⟨a, b, c, d, rfl, ha, hb, hc, hd, halla, hallb, hallc, halld⟩⟩
        rw [heq]; simp
    · rcases endDollar_iff.mp hend with rfl | rfl
      · refine Or.inl (Or.inl ⟨a, b, ?_, ha, hb, halla, hallb⟩)
        rw [heq]; simp
      · refine Or.inr ⟨a ++ '-' :: b, ?_, Or.inl ⟨a, b, rfl, ha, hb, halla, hallb⟩⟩
        rw [heq]; simp
  · intro h
    have main : ∀ (t w : List Char), VersionShape t → endDollar w = true →
        validate_version (t ++ w) = true := by
      intro t w hs hw
      have hne : (t ++ w).isEmpty = false := by
        cases t with
        | nil => exact absurd rfl (versionShape_ne_nil hs)
        | cons c r => simp
      rw [validate_version, if_neg (by simp [hne])]
      rcases hs with ⟨a, b, heq, ha, hb, halla, hallb⟩ |
        ⟨a, b, c, d, heq, ha, hb, hc, hd, halla, hallb, hallc, halld⟩
      · refine tryMany1_iff.mpr ⟨a, '-' :: (b ++ w), by rw [heq]; simp, ha, halla, ?_⟩
        refine dashGroups_iff.mpr ⟨b ++ w, rfl, ?_⟩
        refine tryMany1_iff.mpr ⟨b, w, rfl, hb, hallb, ?_⟩
        rw [afterGroups, hw]
        simp
      · refine tryMany1_iff.mpr
          ⟨a, '-' :: (b ++ '-' :: (c ++ '.' :: (d ++ w))), by rw [heq]; simp, ha, halla, ?_⟩
        refine dashGroups_iff.mpr ⟨b ++ '-' :: (c ++ '.' :: (d ++ w)), rfl, ?_⟩
        refine tryMany1_iff.mpr ⟨b, '-' :: (c ++ '.' :: (d ++ w)), rfl, hb, hallb, ?_⟩
        rw [afterGroups, Bool.or_eq_true_iff]
        refine Or.inl (optTail_iff.mpr ⟨c ++ '.' :: (d ++ w), rfl, ?_⟩)
        refine tryMany1_iff.mpr ⟨c, '.' :: (d ++ w), rfl, hc, hallc, ?_⟩
        refine dotDigits_iff.mpr ⟨d ++ w, rfl, ?_⟩
        exact tryMany1_iff.mpr ⟨d, w, rfl, hd, halld, hw⟩
    rcases h with hs | ⟨t, heq, hs⟩
    · simpa using main s [] hs (by decide)
    · rw [heq]
      exact main t ['\n'] hs (by decide)

/-- Counterexample to C7 as stated: the code accepts `"1.2-3.4\n"`, which is
not of the documented shape (it contains a newline). -/
theorem claim_C7_counterexample :
    validate_version (strL "1.2-3.4\n") = true ∧ ¬ VersionShape (strL "1.2-3.4\n") :=
  ⟨by decide, fun h => versionShape_no_newline h (by decide)⟩

theorem lineStartB_iff {s : List Char} {i : Nat} :
    lineStartB s i = true ↔ (i = 0 ∨ ∃ u v, s = u ++ '\n' :: v ∧ u.length + 1 = i) := by
  rw [lineStartB, Bool.or_eq_true_iff]
  constructor
  · intro h
    by_cases hi : i = 0
    · exact Or.inl hi
    rcases h with h0 | hnl
    · exact absurd (by simpa using h0) hi
    have hh : (s.drop (i - 1)).head? = some '\n' := by simpa using hnl
    rcases hd : s.drop (i - 1) with _ | ⟨c, t⟩
    · rw [hd] at hh; exact absurd hh (by simp)
    rw [hd] at hh
    have hc : c = '\n' := by simpa using hh
    subst hc
    have hlt : i - 1 < s.length := by
      by_contra hge
      rw [List.drop_eq_nil_iff.mpr (by omega)] at hd
      exact absurd hd (by simp)
    refine Or.inr ⟨s.take (i - 1), t, ?_, ?_⟩
    · conv_lhs => rw [← List.take_append_drop (i - 1) s, hd]
    · rw [List.length_take_of_le (by omega)]
      omega
  · rintro (rfl | ⟨u, v, heq, hlen⟩)
    · exact Or.inl (by simp)
    · refine Or.inr ?_
      have : s.drop (i - 1) = '\n' :: v := by
        rw [heq, show i - 1 = u.length from by omega, List.drop_left]
      rw [this]
      simp

theorem prefix_drop_lt {s pat : List Char} {i : Nat}
    (h : pat <+: s.drop i) (hne : pat ≠ []) : i < s.length := by
  obtain ⟨t, ht⟩ := h
  by_contra hge
  rw [List.drop_eq_nil_iff.mpr (by omega)] at ht
  exact hne (List.append_eq_nil.mp ht).1

/-- Position `i` starts a line whose text begins with `[Unreleased]:` (the
declarative reading of the splitter's lookahead pattern). -/
def LinkLineAt (s : List Char) (i : Nat) : Prop :=
  (i = 0 ∨ ∃ u v, s = u ++ '\n' :: v ∧ u.length + 1 = i) ∧
    strL "[Unreleased]:" <+: s.drop i

theorem linkLineAt_iff {s : List Char} {i : Nat} :
    LinkLineAt s i ↔
      (lineStartB s i && (strL "[Unreleased]:").isPrefixOf (s.drop i)) = true := by
  rw [Bool.and_eq_true_iff, LinkLineAt, lineStartB_iff, List.isPrefixOf_iff_prefix]

/-- Claim C9: whenever some line of the document begins with `[Unreleased]:`,
the splitter returns a pair `(upper, bottom)` that partitions the document
character for character, with `bottom` starting exactly at the first such
line; when no such line exists the run fails fatally with the diagnostic. -/
theorem claim_C9 (content : List Char) :
    ((∃ i, LinkLineAt content i) →
      ∃ u b, split_changelog_content content = .ok (u, b) ∧
        u ++ b = content ∧ LinkLineAt content u.length ∧
        ∀ j < u.length, ¬ LinkLineAt content j) ∧
    ((∀ i, ¬ LinkLineAt content i) →
      split_changelog_content content =
        .error (strL "Error: Could not find the link definitions section in CHANGES.md")) := by
  constructor
  · rintro ⟨i0, hi0⟩
    have hp0 : (lineStartB content i0 &&
        (strL "[Unreleased]:").isPrefixOf (content.drop i0)) = true :=
      linkLineAt_iff.mp hi0
    have hlt : i0 < content.length :=
      prefix_drop_lt hi0.2 (by decide : strL "[Unreleased]:" ≠ [])
    obtain ⟨j, hj, -⟩ := @findFrom_isSome (fun k => lineStartB content k &&
      (strL "[Unreleased]:").isPrefixOf (content.drop k)) 0 (content.length + 1) i0
      hp0 (Nat.zero_le _) (by omega)
    have hsplit : linkSplitIdx content = some j := hj
    obtain ⟨hpj, -, hmin⟩ := findFrom_eq_some hj
    have hjlt : j < content.length := by
      refine prefix_drop_lt (List.isPrefixOf_iff_prefix.mp
        (Bool.and_eq_true_iff.mp hpj).2) (by decide : strL "[Unreleased]:" ≠ [])
    refine ⟨content.take j, content.drop j, ?_, List.take_append_drop j content, ?_, ?_⟩
    · rw [split_changelog_content, hsplit]
    · rw [List.length_take_of_le (by omega)]
      exact linkLineAt_iff.mpr hpj
    · intro j2 hj2
      rw [List.length_take_of_le (by omega)] at hj2
      intro hl2
      have := hmin j2 (Nat.zero_le _) hj2
      rw [linkLineAt_iff] at hl2
      rw [this] at hl2
      exact absurd hl2 (by simp)
  · intro hnone
    have hfalse : ∀ k, (lineStartB content k &&
        (strL "[Unreleased]:").isPrefixOf (content.drop k)) = false := by
      intro k
      cases hb : (lineStartB content k &&
          (strL "[Unreleased]:").isPrefixOf (content.drop k)) with
      | false => rfl
      | true => exact absurd (linkLineAt_iff.mpr hb) (hnone k)
    rw [split_changelog_content, linkSplitIdx, findFrom_none_of_false hfalse]

/-- Witness for C9 at a concrete document. -/
theorem claim_C9_witness :
    ∃ u b, split_changelog_content (strL "# T\n[Unreleased]: u\n") = .ok (u, b) ∧
      u ++ b = strL "# T\n[Unreleased]: u\n" ∧
      LinkLineAt (strL "# T\n[Unreleased]: u\n") u.length ∧
      ∀ j < u.length, ¬ LinkLineAt (strL "# T\n[Unreleased]: u\n") j :=
  (claim_C9 _).1 ⟨4, ⟨Or.inr ⟨strL "# T", strL "[Unreleased]: u\n", by decide, by decide⟩,
    ⟨strL " u\n", by decide⟩⟩⟩

theorem takeWhile_all_append {p : Char → Bool} {a : List Char} (b : List Char)
    (ha : AllB p a) : (a ++ b).takeWhile p = a ++ b.takeWhile p := by
  induction a with
  | nil => simp
  | cons c a ih =>
    rw [List.cons_append, List.takeWhile_cons, if_pos (ha c (List.mem_cons_self _ _)),
      ih (fun x hx => ha x (List.mem_cons_of_mem _ hx))]
    simp

theorem takeWhile_head_false (p : Char → Bool) {c : Char} (t : List Char)
    (hc : p c = false) : (c :: t).takeWhile p = [] := by
  rw [List.takeWhile_cons, if_neg (by simp [hc])]

theorem allB_takeWhile (p : Char → Bool) (l : List Char) : AllB p (l.takeWhile p) := by
  intro c hc
  exact List.mem_takeWhile_imp hc

theorem prefix_eq_append_drop {a l : List Char} (h : a <+: l) :
    l = a ++ l.drop a.length := by
  obtain ⟨t, ht⟩ := h
  conv_lhs => rw [← ht]
  rw [← ht, List.drop_left]

theorem drop_add_comm (s : List Char) (m n : Nat) : s.drop (m + n) = s.drop (n + m) := by
  rw [Nat.add_comm]

theorem drop_length_takeWhile (p : Char → Bool) (l : List Char) :
    l.drop (l.takeWhile p).length = l.dropWhile p := by
  induction l with
  | nil => rfl
  | cons c t ih =>
    rw [List.takeWhile_cons, List.dropWhile_cons]
    by_cases hp : p c = true
    · rw [if_pos hp, if_pos hp, List.length_cons, List.drop_succ_cons, ih]
    · rw [if_neg hp, if_neg hp, List.length_nil, List.drop_zero]

theorem changesMatchLen_cons_ne {c : Char} (t : List Char) (hc : (c == '#') = false) :
    changesMatchLen (c :: t) = none := by
  rw [changesMatchLen, takeWhile_head_false (fun x => x == '#') t hc]
  simp

theorem pyWs_ne_hash {c : Char} (h : isPyWs c = true) : (c == '#') = false := by
  rw [isPyWs] at h
  rcases Bool.or_eq_true_iff.mp h with h | h6
  rcases Bool.or_eq_true_iff.mp h with h | h5
  rcases Bool.or_eq_true_iff.mp h with h | h4
  rcases Bool.or_eq_true_iff.mp h with h | h3
  rcases Bool.or_eq_true_iff.mp h with h1 | h2
  all_goals first
    | (rw [show c = ' ' from by simpa using h1]; decide)
    | (rw [show c = '\t' from by simpa using h2]; decide)
    | (rw [show c = '\n' from by simpa using h3]; decide)
    | (rw [show c = '\r' from by simpa using h4]; decide)
    | (rw [show c = '\x0b' from by simpa using h5]; decide)
    | (rw [show c = '\x0c' from by simpa using h6]; decide)

/-- A position where `#+\s+Changes` can match: a nonempty run of `#`, a
nonempty run of whitespace, then the literal `Changes`. -/
def ChangesPatAt (s : List Char) : Prop :=
  ∃ h w r, s = h ++ w ++ (strL "Changes" ++ r) ∧
    h ≠ [] ∧ AllB (fun c => c == '#') h ∧ w ≠ [] ∧ AllB isPyWs w

theorem changesMatchLen_isSome_iff {s : List Char} :
    (changesMatchLen s).isSome = true ↔ ChangesPatAt s := by
  constructor
  · intro hs
    rw [changesMatchLen] at hs
    by_cases h1 : (s.takeWhile (fun c => c == '#')).isEmpty
    · rw [if_pos h1] at hs; exact absurd hs (by simp)
    rw [if_neg h1] at hs
    by_cases h2 : ((s.drop (s.takeWhile (fun c => c == '#')).length).takeWhile isPyWs).isEmpty
    · rw [if_pos h2] at hs; exact absurd hs (by simp)
    rw [if_neg h2] at hs
    by_cases h3 : (strL "Changes").isPrefixOf
        (s.drop ((s.takeWhile (fun c => c == '#')).length +
          ((s.drop (s.takeWhile (fun c => c == '#')).length).takeWhile isPyWs).length)) = true
    · obtain ⟨r, hr⟩ := List.isPrefixOf_iff_prefix.mp h3
      have hsplit1 : s = s.takeWhile (fun c => c == '#') ++
          s.drop (s.takeWhile (fun c => c == '#')).length :=
        prefix_eq_append_drop (List.takeWhile_prefix _)
      have hsplit2 : s.drop (s.takeWhile (fun c => c == '#')).length =
          (s.drop (s.takeWhile (fun c => c == '#')).length).takeWhile isPyWs ++
            (s.drop (s.takeWhile (fun c => c == '#')).length).drop
              ((s.drop (s.takeWhile (fun c => c == '#')).length).takeWhile isPyWs).length :=
        prefix_eq_append_drop (List.takeWhile_prefix _)
      have hsplit3 : (s.drop (s.takeWhile (fun c => c == '#')).length).drop
          ((s.drop (s.takeWhile (fun c => c == '#')).length).takeWhile isPyWs).length =
          strL "Changes" ++ r := by
        rw [List.drop_drop]
        exact hr.symm
      refine ⟨s.takeWhile (fun c => c == '#'),
        (s.drop (s.takeWhile (fun c => c == '#')).length).takeWhile isPyWs, r,
        ?_, by simpa using h1, allB_takeWhile (fun c => c == '#') s,
        by simpa using h2, allB_takeWhile isPyWs (s.drop (s.takeWhile (fun c => c == '#')).length)⟩
      rw [List.append_assoc, ← hsplit3, ← hsplit2, ← hsplit1]
    · rw [if_neg h3] at hs; exact absurd hs (by simp)
  · rintro ⟨h, w, r, heq, hne, hall, wne, wall⟩
    obtain ⟨wc, wt, rfl⟩ : ∃ wc wt, w = wc :: wt := by
      cases w with
      | nil => exact absurd rfl wne
      | cons wc wt => exact ⟨wc, wt, rfl⟩
    have htw : s.takeWhile (fun c => c == '#') = h := by
      rw [heq, List.append_assoc, takeWhile_all_append _ hall, List.cons_append,
        takeWhile_head_false (fun x => x == '#') _
          (pyWs_ne_hash (wall wc (List.mem_cons_self _ _))), List.append_nil]
    have hdrop : s.drop h.length = (wc :: wt) ++ (strL "Changes" ++ r) := by
      rw [heq, List.append_assoc, List.drop_left]
    have hCh : strL "Changes" ++ r = 'C' :: (strL "hanges" ++ r) := rfl
    have htw2 : (s.drop h.length).takeWhile isPyWs = wc :: wt := by
      rw [hdrop, takeWhile_all_append _ wall, hCh,
        takeWhile_head_false isPyWs _ (by decide), List.append_nil]
    have hdrop2 : s.drop (h.length + (wc :: wt).length) = strL "Changes" ++ r := by
      rw [← List.drop_drop, hdrop, List.drop_left]
    rw [changesMatchLen, htw, if_neg (by simpa using hne), htw2, if_neg (by simp), hdrop2,
      if_pos (List.isPrefixOf_iff_prefix.mpr ⟨r, rfl⟩)]
    simp

theorem changesMatchLen_eq_of_shape {h w r s : List Char}
    (heq : s = h ++ w ++ (strL "Changes" ++ r)) (hne : h ≠ [])
    (hall : AllB (fun c => c == '#') h) (wne : w ≠ []) (wall : AllB isPyWs w) :
    changesMatchLen s = some (h.length + w.length + 7) := by
  obtain ⟨wc, wt, rfl⟩ : ∃ wc wt, w = wc :: wt := by
    cases w with
    | nil => exact absurd rfl wne
    | cons wc wt => exact ⟨wc, wt, rfl⟩
  have htw : s.takeWhile (fun c => c == '#') = h := by
    rw [heq, List.append_assoc, takeWhile_all_append _ hall, List.cons_append,
      takeWhile_head_false (fun x => x == '#') _
        (pyWs_ne_hash (wall wc (List.mem_cons_self _ _))), List.append_nil]
  have hdrop : s.drop h.length = (wc :: wt) ++ (strL "Changes" ++ r) := by
    rw [heq, List.append_assoc, List.drop_left]
  have hCh : strL "Changes" ++ r = 'C' :: (strL "hanges" ++ r) := rfl
  have htw2 : (s.drop h.length).takeWhile isPyWs = wc :: wt := by
    rw [hdrop, takeWhile_all_append _ wall, hCh,
      takeWhile_head_false isPyWs _ (by decide), List.append_nil]
  have hdrop2 : s.drop (h.length + (wc :: wt).length) = strL "Changes" ++ r := by
    rw [← List.drop_drop, hdrop, List.drop_left]
  rw [changesMatchLen, htw, if_neg (by simpa using hne), htw2, if_neg (by simp), hdrop2,
    if_pos (List.isPrefixOf_iff_prefix.mpr ⟨r, rfl⟩)]

theorem changesMatchLen_at_heading (post : List Char) :
    changesMatchLen (strL "### Changes" ++ post) = some 11 :=
  changesMatchLen_eq_of_shape
    (show strL "### Changes" ++ post = strL "###" ++ [' '] ++ (strL "Changes" ++ post) from rfl)
    (by decide)
    (by intro c hc; simp [strL] at hc; subst hc; rfl)
    (by decide)
    (by intro c hc; simp at hc; subst hc; rfl)

/-- Claim C4 (amended): when the first occurrence of the pattern
`#+\s+Changes` in the body is the `### Changes` heading itself (in particular
whenever no `#` occurs before that heading), `create_new_entry` inserts the
new bullet right after the heading, separated from it by one blank line and
followed by a newline, and then the rest of the body with its leading
whitespace stripped; everything before the heading is preserved verbatim. -/
theorem claim_C4 (pre post e : List Char) (hp : ∀ c ∈ pre, c ≠ '#') :
    create_new_entry (pre ++ strL "### Changes" ++ post) e =
      pre ++ strL "### Changes" ++ strL "\n\n" ++ e ++ '\n' :: pyLstrip post := by
  have hN : ∀ i, i < pre.length →
      ((changesMatchLen ((pre ++ strL "### Changes" ++ post).drop i)).isSome) = false := by
    intro i hi
    have hdropi : (pre ++ strL "### Changes" ++ post).drop i =
        pre[i] :: (pre.drop (i + 1) ++ strL "### Changes" ++ post) := by
      rw [List.drop_append_eq_append_drop, List.drop_append_eq_append_drop,
        Nat.sub_eq_zero_of_le (le_of_lt hi), List.drop_zero,
        Nat.sub_eq_zero_of_le (by simp [strL]; omega), List.drop_zero,
        List.drop_eq_getElem_cons hi, List.cons_append, List.cons_append]
    rw [hdropi, changesMatchLen_cons_ne _ (by
      simp only [beq_eq_false_iff_ne]
      exact hp pre[i] (pre.getElem_mem hi))]
    rfl
  have hdropP : (pre ++ strL "### Changes" ++ post).drop pre.length =
      strL "### Changes" ++ post := by
    rw [List.append_assoc]
    exact List.drop_left pre _
  have hM : changesMatchLen ((pre ++ strL "### Changes" ++ post).drop pre.length) =
      some 11 := by
    rw [hdropP]
    exact changesMatchLen_at_heading post
  have hlen : (pre ++ strL "### Changes" ++ post).length =
      pre.length + 11 + post.length := by
    simp [strL]
    omega
  have hsearch : changesSearch (pre ++ strL "### Changes" ++ post) =
      some (pre.length + 11) := by
    rw [changesSearch]
    have hpP : (fun i => (changesMatchLen
        ((pre ++ strL "### Changes" ++ post).drop i)).isSome) pre.length = true := by
      simp only [hM]; rfl
    obtain ⟨j, hj, hjle⟩ := @findFrom_isSome
      (fun i => (changesMatchLen ((pre ++ strL "### Changes" ++ post).drop i)).isSome)
      0 ((pre ++ strL "### Changes" ++ post).length + 1) pre.length hpP
      (Nat.zero_le _) (by omega)
    obtain ⟨hpj, -, -⟩ := findFrom_eq_some hj
    have hjeq : j = pre.length := by
      rcases Nat.eq_or_lt_of_le hjle with heq2 | hlt
      · exact heq2
      · exact absurd hpj (by rw [hN j hlt]; simp)
    subst hjeq
    rw [hj]
    simp only [hM, Option.getD_some]
  have hne2 : pre ++ strL "### Changes" ++ post ≠ [] := by
    intro hc
    have hl := congrArg List.length hc
    rw [hlen] at hl
    simp at hl
  have htake : (pre ++ strL "### Changes" ++ post).take (pre.length + 11) =
      pre ++ strL "### Changes" :=
    List.take_left' (by simp [strL])
  have hdrop11 : (pre ++ strL "### Changes" ++ post).drop (pre.length + 11) = post := by
    have h2 : (pre ++ strL "### Changes").length = pre.length + 11 := by simp [strL]
    rw [← h2, List.drop_left]
  rw [create_new_entry, if_neg (by simpa using hne2), hsearch]
  simp only [htake, hdrop11]

/-- Witness for C4: Scenario B of the spec, a body `### Changes` with one
bullet `* foo`; the new bullet lands right below the heading and above
`* foo`, which is preserved. -/
theorem claim_C4_witness :
    create_new_entry (strL "### Changes\n\n* foo") (strL "* bar") =
      strL "### Changes\n\n* bar\n* foo" := by
  have h := claim_C4 [] (strL "\n\n* foo") (strL "* bar") (by intro c hc; simp at hc)
  rw [List.nil_append] at h
  exact h.trans (by decide)

/-- Counterexample to C4 as stated: in a body whose text contains the pattern
`#+\s+Changes` before the real `### Changes` heading (here inside the heading
`#### Changeset`), the bullet is spliced into that earlier text, and the prior
text `Changeset` is not preserved. -/
theorem claim_C4_counterexample :
    create_new_entry (strL "#### Changeset\n\n### Changes\n\n* foo") (strL "* bar") =
        strL "#### Changes\n\n* bar\net\n\n### Changes\n\n* foo" ∧
      (findSub (strL "#### Changeset\n\n### Changes\n\n* foo") (strL "Changeset")).isSome
        = true ∧
      (findSub (strL "#### Changes\n\n* bar\net\n\n### Changes\n\n* foo")
        (strL "Changeset")).isSome = false := by
  refine ⟨by decide, by decide, by decide⟩

theorem changesSearch_eq_none {body : List Char}
    (h : ∀ i, ¬ ChangesPatAt (body.drop i)) : changesSearch body = none := by
  rw [changesSearch, findFrom_none_of_false]
  intro k
  cases hb : (changesMatchLen (body.drop k)).isSome with
  | false => rfl
  | true => exact absurd (changesMatchLen_isSome_iff.mp hb) (h k)

/-- Claim C5 (amended): for an empty unreleased body `create_new_entry`
produces a fresh `### Changes` heading followed by the bullet; for a non-empty
body containing no occurrence of the pattern `#+\s+Changes` (the code's test
for a Changes heading) it produces a new `### Changes` heading holding only
the new bullet followed by the original body; and in Scenario A
(`NEW_VERSION=1.2.3-4.5.6`, `PR_NUMBER=42`, empty body) the merged body after
the PR link is appended is exactly the documented text. -/
theorem claim_C5 :
    (∀ e : List Char, create_new_entry [] e = strL "### Changes\n\n" ++ e) ∧
    (∀ body e : List Char, body ≠ [] → (∀ i, ¬ ChangesPatAt (body.drop i)) →
      create_new_entry body e = strL "### Changes\n\n" ++ e ++ strL "\n\n" ++ body) ∧
    (add_pr_link (create_new_entry [] (mkEntry (strL "1.2.3-4.5.6") (strL "42")))
        (mkPrLink (strL "42")) =
      strL "### Changes\n\n* chore: bump nearcore to 4.5.6 in [#42]\n\n[#42]: https://github.com/aurora-is-near/borealis-engine-lib/pull/42") := by
  refine ⟨fun e => by rw [create_new_entry]; rfl, fun body e hne hpat => ?_, by decide⟩
  rw [create_new_entry, if_neg (by simpa using hne), changesSearch_eq_none hpat]

/-- Witness for C5 at a concrete body with no Changes pattern. -/
theorem claim_C5_witness :
    create_new_entry (strL "* misc fix") (strL "* bar") =
      strL "### Changes\n\n* bar\n\n* misc fix" := by
  have hfix : ∀ i, ¬ ChangesPatAt ((strL "* misc fix").drop i) := by
    intro i hc
    have hb := changesMatchLen_isSome_iff.mpr hc
    have hall := @existsSuffix_eq_false
      (fun t => (changesMatchLen t).isSome) (strL "* misc fix") (by decide) i
    rw [hall] at hb
    exact absurd hb (by simp)
  exact (claim_C5.2.1 (strL "* misc fix") (strL "* bar") (by decide) hfix).trans (by decide)

/-- Counterexample to C5 as stated: the body `see # Changes note` contains no
markdown heading at all, yet the code finds the pattern `# Changes` inside the
line and splices the bullet there instead of synthesizing a fresh heading
above the body. -/
theorem claim_C5_counterexample :
    create_new_entry (strL "see # Changes note") (strL "* bar") =
        strL "see # Changes\n\n* bar\nnote" ∧
      create_new_entry (strL "see # Changes note") (strL "* bar") ≠
        strL "### Changes\n\n* bar\n\nsee # Changes note" := by
  refine ⟨by decide, by decide⟩

/-- A position where `\[#\d+\]: <repo-url>/pull/\d+` can match: `[#`, a
nonempty digit run, the literal `]: <repo-url>/pull/`, then at least one more
digit. -/
def PrLinkShape (s : List Char) : Prop :=
  ∃ d1 c r, s = strL "[#" ++ d1 ++ prLinkLit ++ c :: r ∧
    d1 ≠ [] ∧ AllB Char.isDigit d1 ∧ c.isDigit = true

theorem prLinkAt_iff {s : List Char} : prLinkAt s = true ↔ PrLinkShape s := by
  constructor
  · intro hs
    rcases s with _ | ⟨c0, s1⟩
    · simp [prLinkAt] at hs
    rcases s1 with _ | ⟨c1, r⟩
    · simp [prLinkAt] at hs
    rw [prLinkAt] at hs
    obtain ⟨⟨⟨⟨h0, h1⟩, hd⟩, hlit⟩, hd2⟩ :
        ((((c0 == '[') = true ∧ (c1 == '#') = true) ∧
          (!(r.takeWhile Char.isDigit).isEmpty) = true) ∧
          (prLinkLit.isPrefixOf (r.drop (r.takeWhile Char.isDigit).length)) = true) ∧
          (!((r.drop ((r.takeWhile Char.isDigit).length +
            prLinkLit.length)).takeWhile Char.isDigit).isEmpty) = true := by
      simpa [Bool.and_eq_true_iff] using hs
    obtain ⟨rest, hrest⟩ := List.isPrefixOf_iff_prefix.mp hlit
    have hrsplit : r = r.takeWhile Char.isDigit ++ r.drop (r.takeWhile Char.isDigit).length :=
      prefix_eq_append_drop (List.takeWhile_prefix _)
    have h3 : rest = (r.drop (r.takeWhile Char.isDigit).length).drop prLinkLit.length := by
      rw [← hrest, List.drop_left]
    have hrest2 : rest = r.drop ((r.takeWhile Char.isDigit).length + prLinkLit.length) := by
      rw [h3, List.drop_drop]
    rcases hrc : rest with _ | ⟨c, r2⟩
    · rw [hrc] at hrest2
      rw [← hrest2] at hd2
      exact absurd hd2 (by simp)
    have hcd : c.isDigit = true := by
      rw [← hrest2, hrc] at hd2
      by_contra hnd
      rw [takeWhile_head_false Char.isDigit r2 (by simpa using hnd)] at hd2
      exact absurd hd2 (by simp)
    refine ⟨r.takeWhile Char.isDigit, c, r2, ?_, by simpa using hd,
      allB_takeWhile Char.isDigit r, hcd⟩
    rw [show c0 = '[' from by simpa using h0, show c1 = '#' from by simpa using h1]
    show ('[' :: '#' :: r : List Char) =
      strL "[#" ++ r.takeWhile Char.isDigit ++ prLinkLit ++ c :: r2
    conv_lhs => rw [hrsplit, ← hrest, hrc]
    simp [strL, List.append_assoc]
  · rintro ⟨d1, c, r, heq, hne, hall, hcd⟩
    obtain ⟨dc, dt, rfl⟩ : ∃ dc dt, d1 = dc :: dt := by
      cases d1 with
      | nil => exact absurd rfl hne
      | cons dc dt => exact ⟨dc, dt, rfl⟩
    have heq2 : s = '[' :: '#' :: ((dc :: dt) ++ prLinkLit ++ c :: r) := by
      rw [heq]
      simp [strL, List.append_assoc]
    rw [heq2, prLinkAt]
    have htw : ((dc :: dt) ++ prLinkLit ++ c :: r).takeWhile Char.isDigit = dc :: dt := by
      rw [List.append_assoc, takeWhile_all_append _ hall,
        show prLinkLit ++ c :: r = ']' :: (strL ": " ++ REPO_URL ++ strL "/pull/" ++ c :: r)
          from by rw [prLinkLit]; simp [strL, List.append_assoc],
        takeWhile_head_false Char.isDigit _ (by decide), List.append_nil]
    have hdrop : ((dc :: dt) ++ prLinkLit ++ c :: r).drop (dc :: dt).length =
        prLinkLit ++ c :: r := by
      rw [List.append_assoc, List.drop_left]
    have hdrop2 : ((dc :: dt) ++ prLinkLit ++ c :: r).drop
        ((dc :: dt).length + prLinkLit.length) = c :: r := by
      rw [← List.drop_drop, hdrop, List.drop_left]
    rw [htw, hdrop, hdrop2]
    simp only [Bool.and_eq_true_iff]
    refine ⟨⟨⟨⟨by simp, by simp⟩, by simp⟩, ?_⟩, ?_⟩
    · exact List.isPrefixOf_iff_prefix.mpr ⟨c :: r, rfl⟩
    · rw [List.takeWhile_cons, if_pos hcd]
      simp

/-- Claim C6 (amended): `add_pr_link` appends the PR link-reference at the end
of the merged body — below the body's final line — separated by a single
newline when some position of the body matches the repository's link-reference
pattern, and by a blank line otherwise; in particular when the body ends with
a reference-link line, the new line lands directly below it, keeping the
reference block contiguous. -/
theorem claim_C6 (content link : List Char) :
    ((∃ j, PrLinkShape (content.drop j)) →
      add_pr_link content link = content ++ '\n' :: link) ∧
    ((∀ j, ¬ PrLinkShape (content.drop j)) →
      add_pr_link content link = content ++ '\n' :: '\n' :: link) ∧
    (∀ base ll, content = base ++ ll → PrLinkShape ll →
      add_pr_link content link = base ++ ll ++ '\n' :: link) := by
  have hpos : (∃ j, PrLinkShape (content.drop j)) →
      add_pr_link content link = content ++ '\n' :: link := by
    rintro ⟨j, hj⟩
    have hhas : hasPrLink content = true := by
      rw [hasPrLink]
      exact existsSuffix_of_drop (prLinkAt_iff.mpr hj)
    rw [add_pr_link, if_pos hhas]
  refine ⟨hpos, ?_, ?_⟩
  · intro hnone
    have hfalse : hasPrLink content = false := by
      rw [hasPrLink]
      cases hb : existsSuffix prLinkAt content with
      | false => rfl
      | true =>
        obtain ⟨j, hj⟩ := existsSuffix_eq_true hb
        exact absurd (prLinkAt_iff.mp hj) (hnone j)
    rw [add_pr_link, if_neg (by simp [hfalse])]
  · intro base ll heq hll
    have hdropb : content.drop base.length = ll := by rw [heq, List.drop_left]
    rw [hpos ⟨base.length, by rw [hdropb]; exact hll⟩, heq, List.append_assoc]

/-- Witness for C6 at a body that is exactly one reference-link line. -/
theorem claim_C6_witness :
    add_pr_link
        (strL "[#1]: https://github.com/aurora-is-near/borealis-engine-lib/pull/1")
        (strL "[#2]: https://github.com/aurora-is-near/borealis-engine-lib/pull/2") =
      strL "[#1]: https://github.com/aurora-is-near/borealis-engine-lib/pull/1\n[#2]: https://github.com/aurora-is-near/borealis-engine-lib/pull/2" := by
  have h := (claim_C6
    (strL "[#1]: https://github.com/aurora-is-near/borealis-engine-lib/pull/1")
    (strL "[#2]: https://github.com/aurora-is-near/borealis-engine-lib/pull/2")).1
    ⟨0, ['1'], '1', [], by decide, by decide, by intro c hc; simp at hc; subst hc; rfl,
      by decide⟩
  exact h.trans (by decide)

/-- Counterexample to C6 as stated: when the body's reference link is not its
final line, the new link is appended at the very end of the body, not directly
below the existing reference block. -/
theorem claim_C6_counterexample :
    add_pr_link
        (strL "[#1]: https://github.com/aurora-is-near/borealis-engine-lib/pull/1\n\ntail")
        (strL "[#2]: https://github.com/aurora-is-near/borealis-engine-lib/pull/2") =
      strL "[#1]: https://github.com/aurora-is-near/borealis-engine-lib/pull/1\n\ntail\n[#2]: https://github.com/aurora-is-near/borealis-engine-lib/pull/2" ∧
    add_pr_link
        (strL "[#1]: https://github.com/aurora-is-near/borealis-engine-lib/pull/1\n\ntail")
        (strL "[#2]: https://github.com/aurora-is-near/borealis-engine-lib/pull/2") ≠
      strL "[#1]: https://github.com/aurora-is-near/borealis-engine-lib/pull/1\n[#2]: https://github.com/aurora-is-near/borealis-engine-lib/pull/2\n\ntail" := by
  refine ⟨by decide, by decide⟩

theorem take_append_succ (a : List Char) (c : Char) (t : List Char) :
    (a ++ c :: t).take (a.length + 1) = a ++ [c] := by
  rw [List.take_append_eq_append_take]
  congr 1
  · exact List.take_of_length_le (by omega)
  · rw [show a.length + 1 - a.length = 1 from by omega]
    rfl

theorem drop_append_succ (a : List Char) (c : Char) (t : List Char) :
    (a ++ c :: t).drop (a.length + 1) = t := by
  rw [List.drop_append_eq_append_drop, List.drop_eq_nil_iff.mpr (by omega),
    show a.length + 1 - a.length = 1 from by omega, List.nil_append]
  rfl

theorem pat14_not_prefix_of_ne {c : Char} (x : List Char) (hc : c ≠ '[') :
    ¬ (strL "[Unreleased]: ") <+: (c :: x) := by
  rintro ⟨u, hu⟩
  rw [show strL "[Unreleased]: " ++ u = '[' :: (strL "Unreleased]: " ++ u) from rfl] at hu
  injection hu with h1 _
  exact hc h1.symm

theorem allB_ne_nl {mid : List Char} (hmid : '\n' ∉ mid) :
    AllB (fun c => c != '\n') mid := by
  intro c hc
  simp only [bne_iff_ne, ne_eq]
  exact fun hcn => hmid (hcn ▸ hc)

theorem takeWhile_line {mid : List Char} (tail : List Char) (hmid : '\n' ∉ mid) :
    (mid ++ '\n' :: tail).takeWhile (fun c => c != '\n') = mid := by
  rw [takeWhile_all_append _ (allB_ne_nl hmid),
    takeWhile_head_false (fun c => c != '\n') tail (by decide), List.append_nil]

theorem sub1Match_at_line (nv mid tail : List Char) (hmid : '\n' ∉ mid) :
    sub1Match nv (strL "[Unreleased]: " ++ mid ++ '\n' :: tail) =
      some (14 + mid.length, unrelRepl nv) := by
  have hpre : (strL "[Unreleased]: ").isPrefixOf
      (strL "[Unreleased]: " ++ mid ++ '\n' :: tail) = true := by
    refine List.isPrefixOf_iff_prefix.mpr ⟨mid ++ '\n' :: tail, ?_⟩
    rw [List.append_assoc]
  rw [sub1Match, if_pos hpre]
  have hd14 : (strL "[Unreleased]: " ++ mid ++ '\n' :: tail).drop 14 =
      mid ++ '\n' :: tail := by
    rw [List.append_assoc, show (14 : Nat) = (strL "[Unreleased]: ").length from rfl,
      List.drop_left]
  rw [hd14, takeWhile_line tail hmid]

theorem sub1Match_none (nv : List Char) {t : List Char}
    (h : ¬ (strL "[Unreleased]: ") <+: t) : sub1Match nv t = none := by
  rw [sub1Match, if_neg (fun hp => h (List.isPrefixOf_iff_prefix.mp hp))]

theorem sub2Match_none (nv pv : List Char) {t : List Char}
    (h : ¬ (strL "[Unreleased]: ") <+: t) : sub2Match nv pv t = none := by
  rw [sub2Match, if_neg (fun hp => h (List.isPrefixOf_iff_prefix.mp hp))]

theorem gsub_sub1 (nv mid tail : List Char) (hmid : '\n' ∉ mid)
    (htail : ∀ j, ¬ (strL "[Unreleased]: ") <+: tail.drop j) :
    gsub (sub1Match nv) (strL "[Unreleased]: " ++ mid ++ '\n' :: tail) =
      unrelRepl nv ++ '\n' :: tail := by
  have hm := sub1Match_at_line nv mid tail hmid
  rw [show 14 + mid.length = (13 + mid.length) + 1 from by omega] at hm
  rw [show strL "[Unreleased]: " ++ mid ++ '\n' :: tail =
    '[' :: (strL "Unreleased]: " ++ mid ++ '\n' :: tail) from rfl] at hm ⊢
  rw [gsub_cons_match hm]
  have hrd : (strL "Unreleased]: " ++ mid ++ '\n' :: tail).drop (13 + mid.length) =
      '\n' :: tail := by
    have hl : (strL "Unreleased]: " ++ mid).length = 13 + mid.length := by
      simp [strL]
      omega
    rw [← hl, List.drop_left]
  rw [hrd]
  congr 1
  have hnl : gsub (sub1Match nv) ('\n' :: tail) = '\n' :: gsub (sub1Match nv) tail :=
    gsub_cons_none (sub1Match_none nv (pat14_not_prefix_of_ne tail (by decide)))
  rw [hnl, gsub_no_match (fun j => sub1Match_none nv (htail j))]

theorem gsub_sub2 (nv pv mid tail : List Char) (hmid : '\n' ∉ mid)
    (htail : ∀ j, ¬ (strL "[Unreleased]: ") <+: tail.drop j) :
    gsub (sub2Match nv pv) (strL "[Unreleased]: " ++ mid ++ '\n' :: tail) =
      strL "[Unreleased]: " ++ mid ++ '\n' :: (newLinkDef nv pv ++ '\n' :: tail) := by
  have hpre : (strL "[Unreleased]: ").isPrefixOf
      (strL "[Unreleased]: " ++ mid ++ '\n' :: tail) = true := by
    refine List.isPrefixOf_iff_prefix.mpr ⟨mid ++ '\n' :: tail, ?_⟩
    rw [List.append_assoc]
  have hd14 : (strL "[Unreleased]: " ++ mid ++ '\n' :: tail).drop 14 =
      mid ++ '\n' :: tail := by
    rw [List.append_assoc, show (14 : Nat) = (strL "[Unreleased]: ").length from rfl,
      List.drop_left]
  have hd15 : (strL "[Unreleased]: " ++ mid ++ '\n' :: tail).drop (14 + mid.length) =
      '\n' :: tail := by
    have hl : (strL "[Unreleased]: " ++ mid).length = 14 + mid.length := by
      simp [strL]
      omega
    rw [← hl, List.drop_left]
  have htk : (strL "[Unreleased]: " ++ mid ++ '\n' :: tail).take (14 + mid.length + 1) =
      (strL "[Unreleased]: " ++ mid) ++ ['\n'] := by
    have hl : (strL "[Unreleased]: " ++ mid).length = 14 + mid.length := by
      simp [strL]
      omega
    rw [← hl, take_append_succ]
  have hm : sub2Match nv pv (strL "[Unreleased]: " ++ mid ++ '\n' :: tail) =
      some (14 + mid.length + 1,
        ((strL "[Unreleased]: " ++ mid) ++ ['\n']) ++ newLinkDef nv pv ++ ['\n']) := by
    rw [sub2Match, if_pos hpre, hd14, takeWhile_line tail hmid]
    rw [if_pos (by rw [hd15]; rfl), htk]
  rw [show strL "[Unreleased]: " ++ mid ++ '\n' :: tail =
    '[' :: (strL "Unreleased]: " ++ mid ++ '\n' :: tail) from rfl] at hm ⊢
  rw [gsub_cons_match hm]
  have hrd : (strL "Unreleased]: " ++ mid ++ '\n' :: tail).drop (14 + mid.length) =
      tail := by
    have hl : (strL "Unreleased]: " ++ mid).length = 13 + mid.length := by
      simp [strL]
      omega
    rw [show 14 + mid.length = (strL "Unreleased]: " ++ mid).length + 1 from by
      rw [hl]; omega, drop_append_succ]
  rw [hrd, gsub_no_match (fun j => sub2Match_none nv pv (htail j))]
  simp [List.append_assoc]

theorem splitOnChar_head_prefix (sep : Char) :
    ∀ s : List Char, ∃ g gs, splitOnChar sep s = g :: gs ∧ g <+: s := by
  intro s
  induction s with
  | nil => exact ⟨[], [], rfl, List.nil_prefix⟩
  | cons c rest ih =>
    obtain ⟨g, gs, hsp, hpre⟩ := ih
    have hrec : splitOnChar sep (c :: rest) =
        if (c == sep) = true then [] :: g :: gs else (c :: g) :: gs := by
      rw [splitOnChar, hsp]
    rw [hrec]
    by_cases hc : (c == sep) = true
    · rw [if_pos hc]
      exact ⟨[], g :: gs, rfl, List.nil_prefix⟩
    · rw [if_neg hc]
      exact ⟨c :: g, gs, rfl, List.cons_prefix_cons.mpr ⟨rfl, hpre⟩⟩

theorem mem_splitOnChar_prefix {sep : Char} :
    ∀ {s l : List Char}, l ∈ splitOnChar sep s → ∃ j, l <+: s.drop j := by
  intro s
  induction s with
  | nil =>
    intro l hl
    rw [splitOnChar, List.mem_singleton] at hl
    exact ⟨0, hl ▸ List.nil_prefix⟩
  | cons c rest ih =>
    intro l hl
    obtain ⟨g, gs, hsp, hpre⟩ := splitOnChar_head_prefix sep rest
    have hrec : splitOnChar sep (c :: rest) =
        if (c == sep) = true then [] :: g :: gs else (c :: g) :: gs := by
      rw [splitOnChar, hsp]
    rw [hrec] at hl
    by_cases hc : (c == sep) = true
    · rw [if_pos hc, List.mem_cons] at hl
      rcases hl with rfl | hl
      · exact ⟨0, List.nil_prefix⟩
      · obtain ⟨j, hj⟩ := ih (hsp ▸ hl)
        exact ⟨j + 1, by simpa using hj⟩
    · rw [if_neg hc, List.mem_cons] at hl
      rcases hl with rfl | hl
      · exact ⟨0, List.cons_prefix_cons.mpr ⟨rfl, hpre⟩⟩
      · obtain ⟨j, hj⟩ := ih (hsp ▸ List.mem_cons_of_mem g hl)
        exact ⟨j + 1, by simpa using hj⟩

theorem nl_not_mem_newLinkDef {nv pv : List Char} (h1 : '\n' ∉ nv) (h2 : '\n' ∉ pv) :
    '\n' ∉ newLinkDef nv pv := by
  intro hm
  rw [newLinkDef] at hm
  rcases List.mem_append.mp hm with hm | hm
  · rcases List.mem_append.mp hm with hm | hm
    · rcases List.mem_append.mp hm with hm | hm
      · rcases List.mem_append.mp hm with hm | hm
        · rcases List.mem_append.mp hm with hm | hm
          · rcases List.mem_append.mp hm with hm | hm
            · rcases List.mem_cons.mp hm with hm | hm
              · exact absurd hm (by decide)
              · exact h1 hm
            · exact absurd hm (by decide)
          · exact absurd hm (by decide)
        · exact absurd hm (by decide)
      · exact h2 hm
    · exact absurd hm (by decide)
  · exact h1 hm

theorem nl_not_mem_urlPart {nv : List Char} (h1 : '\n' ∉ nv) :
    '\n' ∉ REPO_URL ++ '/' :: nv ++ strL "...main" := by
  intro hm
  rcases List.mem_append.mp hm with hm | hm
  · rcases List.mem_append.mp hm with hm | hm
    · exact absurd hm (by decide)
    · rcases List.mem_cons.mp hm with hm | hm
      · exact absurd hm (by decide)
      · exact h1 hm
  · exact absurd hm (by decide)

theorem unrelRepl_decomp (nv : List Char) :
    unrelRepl nv = strL "[Unreleased]: " ++ (REPO_URL ++ '/' :: nv ++ strL "...main") := by
  rw [unrelRepl]
  simp [List.append_assoc]

/-- Claim C3 (amended): `update_link_definitions` rewrites every occurrence of
an `[Unreleased]: ` line, not only the first; on a link region consisting of a
single `[Unreleased]: ...` line (with trailing newline) followed by text with
no further `[Unreleased]: ` occurrence, it replaces that line by
`[Unreleased]: <repo-url>/<new-version>...main`, inserts
`[<new-version>]: <repo-url>/compare/<prev>...<new-version>` immediately
below, and leaves the rest unchanged, so that exactly one `[Unreleased]: `
line remains and it immediately precedes the inserted line; a region with no
`[Unreleased]: ` occurrence is returned unchanged. -/
theorem claim_C3 :
    (∀ nv pv mid tail : List Char, '\n' ∉ mid → '\n' ∉ nv → 'U' ∉ nv → '\n' ∉ pv →
      (∀ j, ¬ (strL "[Unreleased]: ") <+: tail.drop j) →
      update_link_definitions (strL "[Unreleased]: " ++ mid ++ '\n' :: tail) nv pv =
          unrelRepl nv ++ '\n' :: (newLinkDef nv pv ++ '\n' :: tail) ∧
        splitOnChar '\n'
            (update_link_definitions (strL "[Unreleased]: " ++ mid ++ '\n' :: tail) nv pv) =
          unrelRepl nv :: newLinkDef nv pv :: splitOnChar '\n' tail ∧
        (strL "[Unreleased]: ").isPrefixOf (unrelRepl nv) = true ∧
        (strL "[Unreleased]: ").isPrefixOf (newLinkDef nv pv) = false ∧
        (∀ l ∈ splitOnChar '\n' tail, (strL "[Unreleased]: ").isPrefixOf l = false)) ∧
    (∀ bottom nv pv : List Char, (∀ j, ¬ (strL "[Unreleased]: ") <+: bottom.drop j) →
      update_link_definitions bottom nv pv = bottom) := by
  constructor
  · intro nv pv mid tail hmid hnv hUnv hpv htail
    have hmain : update_link_definitions (strL "[Unreleased]: " ++ mid ++ '\n' :: tail) nv pv =
        unrelRepl nv ++ '\n' :: (newLinkDef nv pv ++ '\n' :: tail) := by
      rw [update_link_definitions, gsub_sub1 nv mid tail hmid htail]
      have hform : unrelRepl nv ++ '\n' :: tail =
          strL "[Unreleased]: " ++ (REPO_URL ++ '/' :: nv ++ strL "...main") ++ '\n' :: tail := by
        rw [unrelRepl_decomp]
      rw [hform, gsub_sub2 nv pv _ tail (nl_not_mem_urlPart hnv) htail, ← unrelRepl_decomp]
    refine ⟨hmain, ?_, ?_, ?_, ?_⟩
    · rw [hmain, splitOnChar_append _ (by
        rw [unrelRepl_decomp]
        intro hm
        rcases List.mem_append.mp hm with hm | hm
        · exact absurd hm (by decide)
        · exact nl_not_mem_urlPart hnv hm),
        splitOnChar_append _ (nl_not_mem_newLinkDef hnv hpv)]
    · exact List.isPrefixOf_iff_prefix.mpr ⟨REPO_URL ++ '/' :: nv ++ strL "...main",
        (unrelRepl_decomp nv).symm⟩
    · cases hb : (strL "[Unreleased]: ").isPrefixOf (newLinkDef nv pv) with
      | false => rfl
      | true =>
        exfalso
        obtain ⟨u, hu⟩ := List.isPrefixOf_iff_prefix.mp hb
        rw [show strL "[Unreleased]: " ++ u =
          '[' :: 'U' :: (strL "nreleased]: " ++ u) from rfl] at hu
        cases hnveq : nv with
        | nil =>
          rw [hnveq] at hu
          rw [show newLinkDef [] pv =
            '[' :: ']' :: (strL ": " ++ REPO_URL ++ strL "/compare/" ++ pv ++ strL "...")
            from by rw [newLinkDef]; simp [strL, List.append_assoc]] at hu
          injection hu with h1 hu2
          injection hu2 with h2 _
          exact absurd h2 (by decide)
        | cons c nvt =>
          rw [hnveq] at hu
          rw [show newLinkDef (c :: nvt) pv =
            '[' :: c :: (nvt ++ strL "]: " ++ REPO_URL ++ strL "/compare/" ++ pv
              ++ strL "..." ++ c :: nvt)
            from by rw [newLinkDef]; simp [strL, List.append_assoc]] at hu
          injection hu with h1 hu2
          injection hu2 with h2 _
          apply hUnv
          rw [hnveq, ← h2]
          exact List.mem_cons_self _ _
    · intro l hl
      cases hb : (strL "[Unreleased]: ").isPrefixOf l with
      | false => rfl
      | true =>
        exfalso
        obtain ⟨j, hj⟩ := mem_splitOnChar_prefix hl
        exact htail j ((List.isPrefixOf_iff_prefix.mp hb).trans hj)
  · intro bottom nv pv hno
    rw [update_link_definitions, gsub_no_match (fun j => sub1Match_none nv (hno j)),
      gsub_no_match (fun j => sub2Match_none nv pv (hno j))]

/-- Witness for C3 at a concrete single-occurrence link region. -/
theorem claim_C3_witness :
    update_link_definitions (strL "[Unreleased]: x\n[0.1.0]: y\n") (strL "9.9-8.8")
        (strL "0.1.0") =
      unrelRepl (strL "9.9-8.8") ++ '\n' ::
        (newLinkDef (strL "9.9-8.8") (strL "0.1.0") ++ '\n' :: strL "[0.1.0]: y\n") := by
  have htail : ∀ j, ¬ (strL "[Unreleased]: ") <+: (strL "[0.1.0]: y\n").drop j := by
    intro j hc
    have h := @existsSuffix_eq_false (fun t => (strL "[Unreleased]: ").isPrefixOf t)
      (strL "[0.1.0]: y\n") (by decide) j
    rw [← List.isPrefixOf_iff_prefix, h] at hc
    exact absurd hc (by simp)
  have h := (claim_C3.1 (strL "9.9-8.8") (strL "0.1.0") (strL "x") (strL "[0.1.0]: y\n")
    (by decide) (by decide) (by decide) (by decide) htail).1
  have heq : strL "[Unreleased]: x\n[0.1.0]: y\n" =
      strL "[Unreleased]: " ++ strL "x" ++ '\n' :: strL "[0.1.0]: y\n" := by decide
  rw [heq]
  exact h

/-- Counterexample to C3 as stated: on a region with two `[Unreleased]: `
lines both are rewritten (the second line's text `b` is destroyed) and the
updated region contains two `[Unreleased]:` lines, not exactly one. -/
theorem claim_C3_counterexample :
    List.countP (fun l => (strL "[Unreleased]:").isPrefixOf l)
        (splitOnChar '\n'
          (update_link_definitions (strL "[Unreleased]: a\n[Unreleased]: b\n")
            (strL "9.9-8.8") (strL "0.1.0"))) = 2 ∧
      (findSub (update_link_definitions (strL "[Unreleased]: a\n[Unreleased]: b\n")
          (strL "9.9-8.8") (strL "0.1.0")) (strL ": b")).isSome = false := by
  refine ⟨by decide, by decide⟩

theorem findFrom_none_of_false_from {p : Nat → Bool} {i fuel : Nat}
    (h : ∀ k, i ≤ k → p k = false) : findFrom p i fuel = none := by
  induction fuel generalizing i with
  | zero => rfl
  | succ fuel ih =>
    rw [findFrom, if_neg (by simp [h i (le_refl i)])]
    exact ih (fun k hk => h k (by omega))

/-- Position `i` starts a line whose text begins with `## [Unreleased]` (the
declarative reading of `UNRELEASED_SECTION_PATTERN` in MULTILINE mode). -/
def UnrelHeadAt (u : List Char) (i : Nat) : Prop :=
  (i = 0 ∨ ∃ a b, u = a ++ '\n' :: b ∧ a.length + 1 = i) ∧
    strL "## [Unreleased]" <+: u.drop i

theorem unrelHeadAt_iff {u : List Char} {i : Nat} :
    UnrelHeadAt u i ↔
      (lineStartB u i && (strL "## [Unreleased]").isPrefixOf (u.drop i)) = true := by
  rw [Bool.and_eq_true_iff, UnrelHeadAt, lineStartB_iff, List.isPrefixOf_iff_prefix]

theorem relMatchB_iff {s : List Char} :
    relMatchB s = true ↔
      ∃ g r, s = strL "## [" ++ g ++ ']' :: r ∧ g ≠ [] ∧ AllB isRelChar g := by
  constructor
  · intro hs
    rw [relMatchB] at hs
    simp only [Bool.and_eq_true_iff] at hs
    obtain ⟨hpre, hne, hhd⟩ := hs
    obtain ⟨t, ht⟩ := List.isPrefixOf_iff_prefix.mp hpre
    have hd4 : s.drop 4 = t := by
      rw [← ht, show (4 : Nat) = (strL "## [").length from rfl, List.drop_left]
    rw [hd4] at hne hhd
    have htsplit : t = t.takeWhile isRelChar ++ t.drop (t.takeWhile isRelChar).length :=
      prefix_eq_append_drop (List.takeWhile_prefix _)
    have hdg : s.drop (4 + (t.takeWhile isRelChar).length) =
        t.drop (t.takeWhile isRelChar).length := by
      rw [← List.drop_drop, hd4]
    rw [hdg] at hhd
    rcases hdrop : t.drop (t.takeWhile isRelChar).length with _ | ⟨c, r⟩
    · rw [hdrop] at hhd; exact absurd hhd (by simp)
    have hc : c = ']' := by
      rw [hdrop] at hhd
      simpa using hhd
    subst hc
    refine ⟨t.takeWhile isRelChar, r, ?_, by simpa using hne, allB_takeWhile isRelChar t⟩
    rw [← ht, List.append_assoc]
    congr 1
    conv_lhs => rw [htsplit, hdrop]
  · rintro ⟨g, r, heq, hne, hall⟩
    have hpre : (strL "## [").isPrefixOf s = true := by
      refine List.isPrefixOf_iff_prefix.mpr ⟨g ++ ']' :: r, ?_⟩
      rw [heq, List.append_assoc]
    have hd4 : s.drop 4 = g ++ ']' :: r := by
      rw [heq, List.append_assoc, show (4 : Nat) = (strL "## [").length from rfl,
        List.drop_left]
    have htw : (s.drop 4).takeWhile isRelChar = g := by
      rw [hd4, takeWhile_all_append _ hall,
        takeWhile_head_false isRelChar _ (by decide), List.append_nil]
    have hdg : s.drop (4 + g.length) = ']' :: r := by
      have h2 : s.drop (4 + g.length) = (s.drop 4).drop g.length := by
        rw [List.drop_drop, Nat.add_comm]
      rw [h2, hd4, List.drop_left' rfl]
    rw [relMatchB]
    simp only [Bool.and_eq_true_iff]
    exact ⟨hpre, by rw [htw]; simpa using hne, by rw [htw, hdg]; rfl⟩

/-- Position `q` starts a line matching `RELEASE_ENTRY_PATTERN`. -/
def RelHeadAt (u : List Char) (q : Nat) : Prop :=
  (q = 0 ∨ ∃ a b, u = a ++ '\n' :: b ∧ a.length + 1 = q) ∧
    ∃ g r, u.drop q = strL "## [" ++ g ++ ']' :: r ∧ g ≠ [] ∧ AllB isRelChar g

theorem relHeadAt_iff {u : List Char} {q : Nat} :
    RelHeadAt u q ↔ (lineStartB u q && relMatchB (u.drop q)) = true := by
  rw [Bool.and_eq_true_iff, RelHeadAt, lineStartB_iff, relMatchB_iff]

theorem truthy_some_ne {v : List Char} (h : v ≠ []) : truthy (some v) = true := by
  cases v with
  | nil => exact absurd rfl h
  | cons c t => rfl

theorem validate_ne_nil {v : List Char} (hv : validate_version v = true) : v ≠ [] := by
  intro h
  rw [h] at hv
  exact absurd hv (by decide)

theorem update_changelog_good {v p : List Char} (hv : validate_version v = true)
    (hp : p ≠ []) (file : Option (List Char)) (date : List Char) :
    update_changelog (some v) (some p) file date =
      match file with
      | none => .fail (strL "Error: CHANGES.md not found")
      | some content => runOnContent v p content date := by
  rw [update_changelog.eq_def,
    if_neg (by rw [truthy_some_ne (validate_ne_nil hv)]; simp [hv]),
    if_neg (by rw [truthy_some_ne (validate_ne_nil hv), truthy_some_ne hp]; simp)]
  cases file <;> rfl

theorem runOnContent_stages {v p content date : List Char}
    (hskip : (findSub content (versionHeading v)).isSome = false) {i : Nat}
    (hsplit : linkSplitIdx content = some i) :
    runOnContent v p content date =
      match unreleasedIdx (content.take i) with
      | none => .fail (strL "Error: Could not find [Unreleased] section in CHANGES.md")
      | some j =>
        match releaseSearch (content.take i) (j + 15) with
        | none => .fail (strL "Error: Could not find any previous release entries")
        | some (k, prev) =>
          .success (strL "Successfully updated CHANGES.md with new version " ++ v)
            (assemble v p date (content.take i) (content.drop i) j k prev) := by
  rw [runOnContent, if_neg (by rw [hskip]; simp), split_changelog_content, hsplit]

/-- Claim C2: configuration errors (missing `NEW_VERSION` or `PR_NUMBER`,
invalid version shape) and document-shape errors (missing file, no
link-definition line, no Unreleased heading, no prior release heading) all
terminate the run with exit status 1 and a diagnostic message, and no error
path ever writes the file — the single write happens only on the success
outcome, after the whole document has been assembled. -/
theorem claim_C2 (nv pr file : Option (List Char)) (date : List Char) :
    ((nv = none ∨ nv = some [] ∨ pr = none ∨ pr = some [] ∨
        (∃ v, nv = some v ∧ validate_version v = false)) →
      ∃ m, update_changelog nv pr file date = .fail m) ∧
    (∀ v p, nv = some v → pr = some p → validate_version v = true → p ≠ [] →
      (file = none → update_changelog nv pr file date =
        .fail (strL "Error: CHANGES.md not found")) ∧
      (∀ content, file = some content →
        (findSub content (versionHeading v)).isSome = false →
        ((∀ i, ¬ LinkLineAt content i) → update_changelog nv pr file date =
          .fail (strL "Error: Could not find the link definitions section in CHANGES.md")) ∧
        (∀ i, linkSplitIdx content = some i →
          ((∀ j2, ¬ UnrelHeadAt (content.take i) j2) → update_changelog nv pr file date =
            .fail (strL "Error: Could not find [Unreleased] section in CHANGES.md")) ∧
          (∀ j2, unreleasedIdx (content.take i) = some j2 →
            (∀ q, j2 + 15 ≤ q → ¬ RelHeadAt (content.take i) q) →
            update_changelog nv pr file date =
              .fail (strL "Error: Could not find any previous release entries"))))) ∧
    (∀ m, update_changelog nv pr file date = .fail m →
      fileWritten (update_changelog nv pr file date) = none ∧
      exitCode (update_changelog nv pr file date) = 1) := by
  refine ⟨?_, ?_, ?_⟩
  · intro hbad
    rcases hbad with rfl | rfl | rfl | rfl | ⟨v, rfl, hv⟩
    · exact ⟨_, by rw [update_changelog.eq_def]; rfl⟩
    · exact ⟨_, by rw [update_changelog.eq_def]; rfl⟩
    · by_cases h1 : (truthy nv && !validate_version (nv.getD [])) = true
      · exact ⟨_, by rw [update_changelog.eq_def, if_pos h1]⟩
      · exact ⟨_, by rw [update_changelog.eq_def, if_neg h1,
          if_pos (by rw [show truthy none = false from rfl]; simp)]⟩
    · by_cases h1 : (truthy nv && !validate_version (nv.getD [])) = true
      · exact ⟨_, by rw [update_changelog.eq_def, if_pos h1]⟩
      · exact ⟨_, by rw [update_changelog.eq_def, if_neg h1,
          if_pos (by rw [show truthy (some []) = false from rfl]; simp)]⟩
    · by_cases h0 : truthy (some v) = true
      · exact ⟨_, by rw [update_changelog.eq_def, if_pos (by rw [h0]; simp [hv])]⟩
      · by_cases h1 : (truthy (some v) && !validate_version ((some v).getD [])) = true
        · exact ⟨_, by rw [update_changelog.eq_def, if_pos h1]⟩
        · exact ⟨_, by rw [update_changelog.eq_def, if_neg h1,
            if_pos (by rw [Bool.eq_false_iff.mpr (fun hc => h0 hc)]; simp)]⟩
  · intro v p hnv hpr hv hp
    subst hnv; subst hpr
    refine ⟨fun hf => by rw [hf, update_changelog_good hv hp], ?_⟩
    intro content hf hfind
    subst hf
    have hrun : update_changelog (some v) (some p) (some content) date =
        runOnContent v p content date := update_changelog_good hv hp _ _
    have hskip : ¬ ((findSub content (versionHeading v)).isSome = true) := by
      rw [hfind]; simp
    refine ⟨?_, ?_⟩
    · intro hnolink
      have hfalse : ∀ k, (lineStartB content k &&
          (strL "[Unreleased]:").isPrefixOf (content.drop k)) = false := by
        intro k
        cases hb : (lineStartB content k &&
            (strL "[Unreleased]:").isPrefixOf (content.drop k)) with
        | false => rfl
        | true => exact absurd (linkLineAt_iff.mpr hb) (hnolink k)
      rw [hrun, runOnContent, if_neg hskip, split_changelog_content, linkSplitIdx,
        findFrom_none_of_false hfalse]
    · intro i hsplit
      have hsplitok : split_changelog_content content =
          .ok (content.take i, content.drop i) := by
        rw [split_changelog_content, hsplit]
      refine ⟨?_, ?_⟩
      · intro hnounrel
        have hfalse : ∀ k, (lineStartB (content.take i) k &&
            (strL "## [Unreleased]").isPrefixOf ((content.take i).drop k)) = false := by
          intro k
          cases hb : (lineStartB (content.take i) k &&
              (strL "## [Unreleased]").isPrefixOf ((content.take i).drop k)) with
          | false => rfl
          | true => exact absurd (unrelHeadAt_iff.mpr hb) (hnounrel k)
        have hnone : unreleasedIdx (content.take i) = none := by
          rw [unreleasedIdx, findFrom_none_of_false hfalse]
        rw [hrun, runOnContent_stages hfind hsplit, hnone]
      · intro j2 hunrel hnorel
        have hfalse : ∀ k, j2 + 15 ≤ k → (lineStartB (content.take i) k &&
            relMatchB ((content.take i).drop k)) = false := by
          intro k hk
          cases hb : (lineStartB (content.take i) k &&
              relMatchB ((content.take i).drop k)) with
          | false => rfl
          | true => exact absurd (relHeadAt_iff.mpr hb) (hnorel k hk)
        have hnone : releaseSearch (content.take i) (j2 + 15) = none := by
          rw [releaseSearch, findFrom_none_of_false_from hfalse]
        rw [hrun, runOnContent_stages hfind hsplit, hunrel]
        show (match releaseSearch (content.take i) (j2 + 15) with
          | none => RunOutcome.fail (strL "Error: Could not find any previous release entries")
          | some (k, prev) =>
            RunOutcome.success (strL "Successfully updated CHANGES.md with new version " ++ v)
              (assemble v p date (content.take i) (content.drop i) j2 k prev)) =
          RunOutcome.fail (strL "Error: Could not find any previous release entries")
        rw [hnone]
  · intro m hm
    rw [hm]
    exact ⟨rfl, rfl⟩

/-- Witness for C2: a run with `NEW_VERSION` unset fails. -/
theorem claim_C2_witness :
    ∃ m, update_changelog none (some (strL "42")) (some (strL "x")) [] = .fail m :=
  (claim_C2 none (some (strL "42")) (some (strL "x")) []).1 (Or.inl rfl)

theorem update_changelog_success_inv {nv pr content date m c2 : List Char}
    (h : update_changelog (some nv) (some pr) (some content) date = .success m c2) :
    runOnContent nv pr content date = .success m c2 := by
  by_cases h1 : (truthy (some nv) && !validate_version ((some nv).getD [])) = true
  · rw [update_changelog.eq_def, if_pos h1] at h
    exact RunOutcome.noConfusion h
  by_cases h2 : (!(truthy (some nv) && truthy (some pr))) = true
  · rw [update_changelog.eq_def, if_neg h1, if_pos h2] at h
    exact RunOutcome.noConfusion h
  rw [update_changelog.eq_def, if_neg h1, if_neg h2] at h
  exact h

theorem prefix_drop_le {s pat : List Char} {j : Nat} (h : pat <+: s.drop j)
    (hne : pat ≠ []) : j + pat.length ≤ s.length := by
  obtain ⟨t, ht⟩ := h
  have hlen := congrArg List.length ht
  simp only [List.length_append, List.length_drop] at hlen
  have hp : pat.length ≠ 0 := fun hc => hne (List.eq_nil_of_length_eq_zero hc)
  omega

theorem releaseSearch_inv {upper : List Char} {pos k : Nat} {prev : List Char}
    (h : releaseSearch upper pos = some (k, prev)) :
    pos ≤ k ∧ (lineStartB upper k && relMatchB (upper.drop k)) = true ∧
      prev = relLabel (upper.drop k) := by
  rw [releaseSearch] at h
  cases hf : findFrom (fun i => lineStartB upper i && relMatchB (upper.drop i))
      pos (upper.length + 1 - pos) with
  | none => rw [hf] at h; exact Option.noConfusion h
  | some k2 =>
    rw [hf] at h
    simp only [Option.some.injEq, Prod.mk.injEq] at h
    obtain ⟨hk, hprev⟩ := h
    subst hk
    obtain ⟨hp, hpos, -⟩ := findFrom_eq_some hf
    exact ⟨hpos, hp, hprev.symm⟩

theorem runOnContent_success_inv {nv pr content date m c2 : List Char}
    (h : runOnContent nv pr content date = .success m c2) :
    (findSub content (versionHeading nv)).isSome = false ∧
    ∃ i j k prev, linkSplitIdx content = some i ∧
      unreleasedIdx (content.take i) = some j ∧
      releaseSearch (content.take i) (j + 15) = some (k, prev) ∧
      c2 = assemble nv pr date (content.take i) (content.drop i) j k prev := by
  have hs : (findSub content (versionHeading nv)).isSome = false := by
    cases hs0 : (findSub content (versionHeading nv)).isSome with
    | false => rfl
    | true =>
      rw [runOnContent, if_pos hs0] at h
      exact RunOutcome.noConfusion h
  refine ⟨hs, ?_⟩
  cases hsplit : linkSplitIdx content with
  | none =>
    rw [runOnContent, if_neg (by rw [hs]; simp), split_changelog_content, hsplit] at h
    exact RunOutcome.noConfusion h
  | some i =>
    rw [runOnContent_stages hs hsplit] at h
    cases hunrel : unreleasedIdx (content.take i) with
    | none =>
      rw [hunrel] at h
      exact RunOutcome.noConfusion h
    | some j =>
      simp only [hunrel] at h
      cases hrs : releaseSearch (content.take i) (j + 15) with
      | none =>
        simp only [hrs] at h
        exact RunOutcome.noConfusion h
      | some kp =>
        rcases kp with ⟨k, prev⟩
        simp only [hrs, RunOutcome.success.injEq] at h
        exact ⟨i, j, k, prev, rfl, hunrel, hrs, h.2.symm⟩

theorem update_success_full_inv {nv pr content date m c2 : List Char}
    (h : update_changelog (some nv) (some pr) (some content) date = .success m c2) :
    ∃ i j k prev, linkSplitIdx content = some i ∧
      unreleasedIdx (content.take i) = some j ∧
      releaseSearch (content.take i) (j + 15) = some (k, prev) ∧
      strL "## [Unreleased]" <+: (content.take i).drop j ∧
      j + 15 ≤ (content.take i).length ∧ j + 15 ≤ k ∧
      c2 = assemble nv pr date (content.take i) (content.drop i) j k prev := by
  obtain ⟨-, i, j, k, prev, hsplit, hunrel, hrs, hc2⟩ :=
    runOnContent_success_inv (update_changelog_success_inv h)
  obtain ⟨hpj, -, -⟩ := findFrom_eq_some hunrel
  have hjpre : strL "## [Unreleased]" <+: (content.take i).drop j :=
    List.isPrefixOf_iff_prefix.mp (Bool.and_eq_true_iff.mp hpj).2
  have hjlen : j + 15 ≤ (content.take i).length := by
    have := prefix_drop_le hjpre (by decide)
    simpa using this
  obtain ⟨hk, -, -⟩ := releaseSearch_inv hrs
  exact ⟨i, j, k, prev, hsplit, hunrel, hrs, hjpre, hjlen, hk, hc2⟩

theorem resetUnreleased_decomp {u mid : List Char} (hmid4 : strL "## [" <+: mid) :
    ∃ w, resetUnreleased ((u ++ strL "## [Unreleased]") ++ strL "\n\n" ++ mid) =
      w ++ mid := by
  set s := (u ++ strL "## [Unreleased]") ++ strL "\n\n" ++ mid with hs
  have hocc : s = u ++ strL "## [Unreleased]" ++ (strL "\n\n" ++ mid) := by
    rw [hs]
    simp [List.append_assoc]
  obtain ⟨a, ha, hale⟩ := findSub_isSome_of hocc
  have hlenPnn : ((u ++ strL "## [Unreleased]") ++ strL "\n\n").length = u.length + 17 := by
    simp [strL]
  have hslen : s.length = u.length + 17 + mid.length := by
    rw [hs]
    simp [strL]
    omega
  have hq0 : s.drop (u.length + 17) = mid := by
    rw [hs, show u.length + 17 = ((u ++ strL "## [Unreleased]") ++ strL "\n\n").length
      from hlenPnn.symm]
    exact List.drop_left _ _
  have hcond : regionEndB s (u.length + 17) = true := by
    rw [regionEndB, hq0, List.isPrefixOf_iff_prefix.mpr hmid4]
    simp
  obtain ⟨b, hb, hble⟩ := @findFrom_isSome (fun q => regionEndB s q) (a + 15)
    (s.length + 1 - (a + 15)) (u.length + 17) hcond (by omega) (by omega)
  have hreset : resetUnreleased s = s.take a ++ strL "## [Unreleased]\n\n" ++ s.drop b := by
    rw [resetUnreleased, ha]
    show (match findFrom (fun q => regionEndB s q) (a + 15) (s.length + 1 - (a + 15)) with
      | none => s
      | some b => s.take a ++ strL "## [Unreleased]\n\n" ++ s.drop b) =
      s.take a ++ strL "## [Unreleased]\n\n" ++ s.drop b
    rw [hb]
  have hdropb : s.drop b =
      ((u ++ strL "## [Unreleased]") ++ strL "\n\n").drop b ++ mid := by
    rw [hs, List.drop_append_eq_append_drop,
      Nat.sub_eq_zero_of_le (by rw [hlenPnn]; omega), List.drop_zero]
  refine ⟨s.take a ++ strL "## [Unreleased]\n\n" ++
    ((u ++ strL "## [Unreleased]") ++ strL "\n\n").drop b, ?_⟩
  rw [hreset, hdropb]
  simp [List.append_assoc]

theorem assemble_decomp {nv pr date upper bottom prev : List Char} {j k : Nat}
    (hj15 : strL "## [Unreleased]" <+: upper.drop j) :
    ∃ w, assemble nv pr date upper bottom j k prev =
      w ++ (strL "## [" ++ nv ++ strL "] " ++ date ++ strL "\n\n" ++
        add_pr_link (create_new_entry
          (pyStrip ((upper.drop (j + 15)).take (k - (j + 15)))) (mkEntry nv pr))
          (mkPrLink pr)) ++
      strL "\n\n" ++ upper.drop k ++ update_link_definitions bottom nv prev := by
  obtain ⟨t, ht⟩ := hj15
  have htake : upper.take (j + 15) = upper.take j ++ strL "## [Unreleased]" := by
    rw [List.take_add]
    congr 1
    rw [← ht]
    exact List.take_left' rfl
  have hmid4 : strL "## [" <+:
      (strL "## [" ++ nv ++ strL "] " ++ date ++ strL "\n\n" ++
        add_pr_link (create_new_entry
          (pyStrip ((upper.drop (j + 15)).take (k - (j + 15)))) (mkEntry nv pr))
          (mkPrLink pr)) ++
      strL "\n\n" ++ upper.drop k := by
    refine ⟨nv ++ strL "] " ++ date ++ strL "\n\n" ++
      add_pr_link (create_new_entry
        (pyStrip ((upper.drop (j + 15)).take (k - (j + 15)))) (mkEntry nv pr))
        (mkPrLink pr) ++ strL "\n\n" ++ upper.drop k, ?_⟩
    simp [List.append_assoc]
  obtain ⟨w, hw⟩ := @resetUnreleased_decomp (upper.take j) _ hmid4
  have harg : upper.take (j + 15) ++ strL "\n\n" ++
      (strL "## [" ++ nv ++ strL "] " ++ date ++ strL "\n\n" ++
        add_pr_link (create_new_entry
          (pyStrip ((upper.drop (j + 15)).take (k - (j + 15)))) (mkEntry nv pr))
          (mkPrLink pr)) ++
      strL "\n\n" ++ upper.drop k =
    (upper.take j ++ strL "## [Unreleased]") ++ strL "\n\n" ++
      ((strL "## [" ++ nv ++ strL "] " ++ date ++ strL "\n\n" ++
        add_pr_link (create_new_entry
          (pyStrip ((upper.drop (j + 15)).take (k - (j + 15)))) (mkEntry nv pr))
          (mkPrLink pr)) ++
      strL "\n\n" ++ upper.drop k) := by
    rw [htake]
    simp [List.append_assoc]
  refine ⟨w, ?_⟩
  rw [assemble, harg, hw]
  simp [List.append_assoc]

theorem prefix_of_append_left {pat A B : List Char} (h : pat <+: A ++ B)
    (hle : pat.length ≤ A.length) : pat <+: A := by
  have h1 := List.prefix_iff_eq_take.mp h
  rw [List.take_append_eq_append_take, Nat.sub_eq_zero_of_le hle, List.take_zero,
    List.append_nil] at h1
  rw [h1]
  exact List.take_prefix _ _

theorem resetUnreleased_exact {u mid : List Char}
    (hdecoy : ∀ q < u.length,
      ¬ (strL "## [Unreleased]" <+: (u ++ strL "## [Unreleased]").drop q))
    (hmid4 : strL "## [" <+: mid) :
    resetUnreleased ((u ++ strL "## [Unreleased]") ++ strL "\n\n" ++ mid) =
      u ++ strL "## [Unreleased]\n\n" ++ mid := by
  set s := (u ++ strL "## [Unreleased]") ++ strL "\n\n" ++ mid with hs
  have hsP : s = (u ++ strL "## [Unreleased]") ++ (strL "\n\n" ++ mid) := by
    rw [hs]
    exact List.append_assoc _ _ _
  have hocc : s = u ++ strL "## [Unreleased]" ++ (strL "\n\n" ++ mid) := by
    rw [hs]
    simp [List.append_assoc]
  have hmidne : mid ≠ [] := by
    obtain ⟨tm, htm⟩ := hmid4
    intro hm
    rw [hm] at htm
    exact absurd (List.append_eq_nil.mp htm).1 (by decide)
  have hlenP : (u ++ strL "## [Unreleased]").length = u.length + 15 := by
    simp [strL]
  have hlenPnn : ((u ++ strL "## [Unreleased]") ++ strL "\n\n").length = u.length + 17 := by
    simp [strL]
  have hslen : s.length = u.length + 17 + mid.length := by
    rw [hs]
    simp [strL]
    omega
  have hdrop17 : s.drop (u.length + 17) = mid := by
    rw [hs, show u.length + 17 = ((u ++ strL "## [Unreleased]") ++ strL "\n\n").length
      from hlenPnn.symm]
    exact List.drop_left _ _
  have hdrop15 : s.drop (u.length + 15) = '\n' :: '\n' :: mid := by
    rw [hsP, show u.length + 15 = (u ++ strL "## [Unreleased]").length from hlenP.symm,
      List.drop_left]
    rfl
  have hdrop16 : s.drop (u.length + 16) = '\n' :: mid := by
    rw [show u.length + 16 = (u.length + 15) + 1 from by omega, ← List.tail_drop, hdrop15]
    rfl
  obtain ⟨a, ha, hale⟩ := findSub_isSome_of hocc
  have hpfxu : strL "## [Unreleased]" <+: s.drop u.length := by
    rw [hocc, List.append_assoc, List.drop_left]
    exact List.prefix_append _ _
  obtain ⟨hpa, hmin⟩ := findSub_eq_some ha
  have haeq : a = u.length := by
    rcases Nat.lt_or_ge a u.length with hlt | hge
    · exfalso
      have hdropa : s.drop a =
          (u ++ strL "## [Unreleased]").drop a ++ (strL "\n\n" ++ mid) := by
        rw [hsP, List.drop_append_eq_append_drop,
          Nat.sub_eq_zero_of_le (by rw [hlenP]; omega), List.drop_zero]
      rw [hdropa] at hpa
      refine hdecoy a hlt (prefix_of_append_left hpa ?_)
      rw [List.length_drop, hlenP,
        show (strL "## [Unreleased]").length = 15 from by decide]
      omega
    · rcases Nat.eq_or_lt_of_le hge with heq | hlt
      · exact heq.symm
      · exact absurd hpfxu (hmin u.length hlt)
  rw [haeq] at ha
  have hc17 : regionEndB s (u.length + 17) = true := by
    rw [regionEndB, hdrop17, List.isPrefixOf_iff_prefix.mpr hmid4]
    simp
  have hc15 : regionEndB s (u.length + 15) = false := by
    have h1 : (strL "## [").isPrefixOf ('\n' :: '\n' :: mid) = false := rfl
    have h2 : (u.length + 15 == s.length) = false := by
      rw [hslen]
      exact beq_eq_false_iff_ne.mpr (by omega)
    have h3 : (('\n' :: '\n' :: mid : List Char) == ['\n']) = false := rfl
    rw [regionEndB, hdrop15, h1, h2, h3]
    rfl
  have hc16 : regionEndB s (u.length + 16) = false := by
    have h1 : (strL "## [").isPrefixOf ('\n' :: mid) = false := rfl
    have h2 : (u.length + 16 == s.length) = false := by
      rw [hslen]
      exact beq_eq_false_iff_ne.mpr (by omega)
    have h3 : (('\n' :: mid : List Char) == ['\n']) = false := by
      refine beq_eq_false_iff_ne.mpr fun hcontr => hmidne ?_
      simpa using hcontr
    rw [regionEndB, hdrop16, h1, h2, h3]
    rfl
  obtain ⟨b, hb, hble⟩ := @findFrom_isSome (fun q => regionEndB s q) (u.length + 15)
    (s.length + 1 - (u.length + 15)) (u.length + 17) hc17 (by omega) (by omega)
  obtain ⟨hpb0, hbge, -⟩ := findFrom_eq_some hb
  have hpb : regionEndB s b = true := hpb0
  have hbeq : b = u.length + 17 := by
    rcases (by omega : b = u.length + 15 ∨ b = u.length + 16 ∨ b = u.length + 17) with
      rfl | rfl | rfl
    · rw [hc15] at hpb
      exact absurd hpb (by decide)
    · rw [hc16] at hpb
      exact absurd hpb (by decide)
    · rfl
  rw [hbeq] at hb
  have htakeu : s.take u.length = u := by
    rw [hocc, List.append_assoc]
    exact List.take_left' rfl
  have hreset : resetUnreleased s =
      s.take u.length ++ strL "## [Unreleased]\n\n" ++ s.drop (u.length + 17) := by
    rw [resetUnreleased, ha]
    show (match findFrom (fun q => regionEndB s q) (u.length + 15)
        (s.length + 1 - (u.length + 15)) with
      | none => s
      | some b => s.take u.length ++ strL "## [Unreleased]\n\n" ++ s.drop b) =
      s.take u.length ++ strL "## [Unreleased]\n\n" ++ s.drop (u.length + 17)
    rw [hb]
  rw [hreset, htakeu, hdrop17]

theorem assemble_exact {nv pr date upper bottom prev : List Char} {j k : Nat}
    (hj15 : strL "## [Unreleased]" <+: upper.drop j)
    (hjlen : j + 15 ≤ upper.length)
    (hdecoy : ∀ q < j, ¬ (strL "## [Unreleased]" <+: upper.drop q)) :
    assemble nv pr date upper bottom j k prev =
      upper.take j ++ strL "## [Unreleased]\n\n" ++
        (strL "## [" ++ nv ++ strL "] " ++ date ++ strL "\n\n" ++
          add_pr_link (create_new_entry
            (pyStrip ((upper.drop (j + 15)).take (k - (j + 15)))) (mkEntry nv pr))
            (mkPrLink pr)) ++
        strL "\n\n" ++ upper.drop k ++ update_link_definitions bottom nv prev := by
  obtain ⟨t, ht⟩ := hj15
  have htake : upper.take (j + 15) = upper.take j ++ strL "## [Unreleased]" := by
    rw [List.take_add]
    congr 1
    rw [← ht]
    exact List.take_left' rfl
  have hlenuj : (upper.take j).length = j := by
    rw [List.length_take]
    omega
  have hmid4 : strL "## [" <+:
      (strL "## [" ++ nv ++ strL "] " ++ date ++ strL "\n\n" ++
        add_pr_link (create_new_entry
          (pyStrip ((upper.drop (j + 15)).take (k - (j + 15)))) (mkEntry nv pr))
          (mkPrLink pr)) ++
      strL "\n\n" ++ upper.drop k := by
    refine ⟨nv ++ strL "] " ++ date ++ strL "\n\n" ++
      add_pr_link (create_new_entry
        (pyStrip ((upper.drop (j + 15)).take (k - (j + 15)))) (mkEntry nv pr))
        (mkPrLink pr) ++ strL "\n\n" ++ upper.drop k, ?_⟩
    simp [List.append_assoc]
  have hdecoy2 : ∀ q < (upper.take j).length,
      ¬ (strL "## [Unreleased]" <+: (upper.take j ++ strL "## [Unreleased]").drop q) := by
    intro q hq hp
    rw [hlenuj] at hq
    rw [← htake] at hp
    have hup : upper.drop q = (upper.take (j + 15)).drop q ++ upper.drop (j + 15) := by
      conv_lhs => rw [← List.take_append_drop (j + 15) upper]
      rw [List.drop_append_eq_append_drop,
        Nat.sub_eq_zero_of_le (by rw [List.length_take]; omega), List.drop_zero]
    exact hdecoy q hq (by rw [hup]; exact hp.trans (List.prefix_append _ _))
  have harg : upper.take (j + 15) ++ strL "\n\n" ++
      (strL "## [" ++ nv ++ strL "] " ++ date ++ strL "\n\n" ++
        add_pr_link (create_new_entry
          (pyStrip ((upper.drop (j + 15)).take (k - (j + 15)))) (mkEntry nv pr))
          (mkPrLink pr)) ++
      strL "\n\n" ++ upper.drop k =
    (upper.take j ++ strL "## [Unreleased]") ++ strL "\n\n" ++
      ((strL "## [" ++ nv ++ strL "] " ++ date ++ strL "\n\n" ++
        add_pr_link (create_new_entry
          (pyStrip ((upper.drop (j + 15)).take (k - (j + 15)))) (mkEntry nv pr))
          (mkPrLink pr)) ++
      strL "\n\n" ++ upper.drop k) := by
    rw [htake]
    simp [List.append_assoc]
  rw [assemble, harg, resetUnreleased_exact hdecoy2 hmid4]
  simp [List.append_assoc]

/-- Claim C10 (amended): the `count=1` reset substitution is unanchored, so the
frame property holds in the decoy-free case: on a successful run whose upper
region contains no `## [Unreleased]` occurrence before the heading found by
`find_unreleased_section`, the written document is exactly the untouched upper
prefix before that heading, an empty `## [Unreleased]` heading, the new release
section, a blank line, the untouched upper tail from the previous-release
heading offset onward — byte for byte, in order — and the rewritten link
region. -/
theorem claim_C10 {nv pr content date m c2 : List Char}
    (h : update_changelog (some nv) (some pr) (some content) date = .success m c2) :
    ∃ i j k prev,
      linkSplitIdx content = some i ∧
      unreleasedIdx (content.take i) = some j ∧
      releaseSearch (content.take i) (j + 15) = some (k, prev) ∧
      ((∀ q < j, ¬ (strL "## [Unreleased]" <+: (content.take i).drop q)) →
        c2 = (content.take i).take j ++ strL "## [Unreleased]\n\n" ++
          (strL "## [" ++ nv ++ strL "] " ++ date ++ strL "\n\n" ++
            add_pr_link (create_new_entry
              (pyStrip (((content.take i).drop (j + 15)).take (k - (j + 15))))
              (mkEntry nv pr)) (mkPrLink pr)) ++
          strL "\n\n" ++ (content.take i).drop k ++
          update_link_definitions (content.drop i) nv prev) := by
  obtain ⟨i, j, k, prev, hsplit, hunrel, hrs, hjpre, hjlen, hjk, hc2⟩ :=
    update_success_full_inv h
  refine ⟨i, j, k, prev, hsplit, hunrel, hrs, fun hdec => ?_⟩
  rw [hc2, assemble_exact hjpre hjlen hdec]

theorem claim_C10_witness :
    ∃ i j k prev,
      linkSplitIdx (strL "# CL\n\n## [Unreleased]\n\n## [0.1.0] 2024-01-01\n\n* old\n\n[Unreleased]: u\n[0.1.0]: v\n") = some i ∧
      unreleasedIdx ((strL "# CL\n\n## [Unreleased]\n\n## [0.1.0] 2024-01-01\n\n* old\n\n[Unreleased]: u\n[0.1.0]: v\n").take i) = some j ∧
      releaseSearch ((strL "# CL\n\n## [Unreleased]\n\n## [0.1.0] 2024-01-01\n\n* old\n\n[Unreleased]: u\n[0.1.0]: v\n").take i) (j + 15) = some (k, prev) ∧
      ((∀ q < j, ¬ (strL "## [Unreleased]" <+: ((strL "# CL\n\n## [Unreleased]\n\n## [0.1.0] 2024-01-01\n\n* old\n\n[Unreleased]: u\n[0.1.0]: v\n").take i).drop q)) →
        strL "# CL\n\n## [Unreleased]\n\n## [1.2-3.4] 2025-01-01\n\n### Changes\n\n* chore: bump nearcore to 3.4 in [#42]\n\n[#42]: https://github.com/aurora-is-near/borealis-engine-lib/pull/42\n\n## [0.1.0] 2024-01-01\n\n* old\n\n[Unreleased]: https://github.com/aurora-is-near/borealis-engine-lib/1.2-3.4...main\n[1.2-3.4]: https://github.com/aurora-is-near/borealis-engine-lib/compare/0.1.0...1.2-3.4\n[0.1.0]: v\n" =
          ((strL "# CL\n\n## [Unreleased]\n\n## [0.1.0] 2024-01-01\n\n* old\n\n[Unreleased]: u\n[0.1.0]: v\n").take i).take j ++ strL "## [Unreleased]\n\n" ++
          (strL "## [" ++ strL "1.2-3.4" ++ strL "] " ++ strL "2025-01-01" ++ strL "\n\n" ++
            add_pr_link (create_new_entry
              (pyStrip ((((strL "# CL\n\n## [Unreleased]\n\n## [0.1.0] 2024-01-01\n\n* old\n\n[Unreleased]: u\n[0.1.0]: v\n").take i).drop (j + 15)).take (k - (j + 15))))
              (mkEntry (strL "1.2-3.4") (strL "42"))) (mkPrLink (strL "42"))) ++
          strL "\n\n" ++ ((strL "# CL\n\n## [Unreleased]\n\n## [0.1.0] 2024-01-01\n\n* old\n\n[Unreleased]: u\n[0.1.0]: v\n").take i).drop k ++
          update_link_definitions ((strL "# CL\n\n## [Unreleased]\n\n## [0.1.0] 2024-01-01\n\n* old\n\n[Unreleased]: u\n[0.1.0]: v\n").drop i) (strL "1.2-3.4") prev) :=
  claim_C10 (by decide :
    update_changelog (some (strL "1.2-3.4")) (some (strL "42"))
      (some (strL "# CL\n\n## [Unreleased]\n\n## [0.1.0] 2024-01-01\n\n* old\n\n[Unreleased]: u\n[0.1.0]: v\n"))
      (strL "2025-01-01") =
    .success (strL "Successfully updated CHANGES.md with new version 1.2-3.4")
      (strL "# CL\n\n## [Unreleased]\n\n## [1.2-3.4] 2025-01-01\n\n### Changes\n\n* chore: bump nearcore to 3.4 in [#42]\n\n[#42]: https://github.com/aurora-is-near/borealis-engine-lib/pull/42\n\n## [0.1.0] 2024-01-01\n\n* old\n\n[Unreleased]: https://github.com/aurora-is-near/borealis-engine-lib/1.2-3.4...main\n[1.2-3.4]: https://github.com/aurora-is-near/borealis-engine-lib/compare/0.1.0...1.2-3.4\n[0.1.0]: v\n"))

/-- Claim C10 counterexample: the reset substitution
`re.sub(r'## \[Unreleased\].*?(?=## \[|$)', ..., count=1)` is unanchored, so a
mid-line `## [Unreleased]` decoy before the real heading absorbs the single
replacement.  The run succeeds, but the decoy line's tail — the character `q`,
which lies outside the Unreleased region, the inserted section and the link
region — is destroyed, refuting the original claim that everything outside
those regions is untouched. -/
theorem claim_C10_counterexample :
    update_changelog (some (strL "1.2-3.4")) (some (strL "42"))
        (some (strL "x## [Unreleased]q\n## [Unreleased]\n\n## [0.1.0] 2024-01-01\n\n* old\n\n[Unreleased]: u\n[0.1.0]: v\n"))
        (strL "2025-01-01") =
      .success (strL "Successfully updated CHANGES.md with new version 1.2-3.4")
        (strL "x## [Unreleased]\n\n## [Unreleased]\n\n## [1.2-3.4] 2025-01-01\n\n### Changes\n\n* chore: bump nearcore to 3.4 in [#42]\n\n[#42]: https://github.com/aurora-is-near/borealis-engine-lib/pull/42\n\n## [0.1.0] 2024-01-01\n\n* old\n\n[Unreleased]: https://github.com/aurora-is-near/borealis-engine-lib/1.2-3.4...main\n[1.2-3.4]: https://github.com/aurora-is-near/borealis-engine-lib/compare/0.1.0...1.2-3.4\n[0.1.0]: v\n") ∧
    'q' ∈ strL "x## [Unreleased]q\n## [Unreleased]\n\n## [0.1.0] 2024-01-01\n\n* old\n\n[Unreleased]: u\n[0.1.0]: v\n" ∧
    ¬ ('q' ∈ strL "x## [Unreleased]\n\n## [Unreleased]\n\n## [1.2-3.4] 2025-01-01\n\n### Changes\n\n* chore: bump nearcore to 3.4 in [#42]\n\n[#42]: https://github.com/aurora-is-near/borealis-engine-lib/pull/42\n\n## [0.1.0] 2024-01-01\n\n* old\n\n[Unreleased]: https://github.com/aurora-is-near/borealis-engine-lib/1.2-3.4...main\n[1.2-3.4]: https://github.com/aurora-is-near/borealis-engine-lib/compare/0.1.0...1.2-3.4\n[0.1.0]: v\n") :=
  ⟨by decide, by decide, by decide⟩

/-- Claim C1: when the changelog already contains the `## [<NEW_VERSION>]`
heading the run returns the skip outcome — exit status 0, skip message, file
bytes unchanged; and after any successful run, a second run with the same
`NEW_VERSION` and `PR_NUMBER` on the written file takes exactly that skip
path, so both runs exit 0 and the second leaves the file unchanged. -/
theorem claim_C1 (nv pr : List Char) (hv : validate_version nv = true)
    (hp : pr ≠ []) (content date : List Char) :
    (∀ u w, content = u ++ versionHeading nv ++ w →
      update_changelog (some nv) (some pr) (some content) date =
        .skip (strL "Version " ++ nv ++
          strL " already exists in CHANGES.md, skipping update") ∧
      exitCode (update_changelog (some nv) (some pr) (some content) date) = 0 ∧
      fileAfter content (update_changelog (some nv) (some pr) (some content) date) =
        content) ∧
    (∀ m c2 date2,
      update_changelog (some nv) (some pr) (some content) date = .success m c2 →
      exitCode (update_changelog (some nv) (some pr) (some content) date) = 0 ∧
      update_changelog (some nv) (some pr) (some c2) date2 =
        .skip (strL "Version " ++ nv ++
          strL " already exists in CHANGES.md, skipping update") ∧
      exitCode (update_changelog (some nv) (some pr) (some c2) date2) = 0 ∧
      fileAfter c2 (update_changelog (some nv) (some pr) (some c2) date2) = c2) := by
  constructor
  · intro u w2 hocc
    obtain ⟨a, ha, -⟩ := findSub_isSome_of hocc
    have hrun : update_changelog (some nv) (some pr) (some content) date =
        .skip (strL "Version " ++ nv ++
          strL " already exists in CHANGES.md, skipping update") := by
      rw [update_changelog_good hv hp]
      show runOnContent nv pr content date = _
      rw [runOnContent, if_pos (by rw [ha]; rfl)]
    exact ⟨hrun, by rw [hrun]; rfl, by rw [hrun]; rfl⟩
  · intro m c2 date2 h
    obtain ⟨i, j, k, prev, -, -, -, hjpre, -, -, hc2⟩ := update_success_full_inv h
    obtain ⟨w, hw⟩ := assemble_decomp hjpre
    have hocc : c2 = w ++ versionHeading nv ++ (' ' :: (date ++ strL "\n\n" ++
        add_pr_link (create_new_entry
          (pyStrip (((content.take i).drop (j + 15)).take (k - (j + 15))))
          (mkEntry nv pr)) (mkPrLink pr) ++
        strL "\n\n" ++ (content.take i).drop k ++
        update_link_definitions (content.drop i) nv prev)) := by
      rw [hc2, hw]
      simp only [versionHeading, List.append_assoc]
      rfl
    obtain ⟨a, ha, -⟩ := findSub_isSome_of hocc
    have hrun2 : update_changelog (some nv) (some pr) (some c2) date2 =
        .skip (strL "Version " ++ nv ++
          strL " already exists in CHANGES.md, skipping update") := by
      rw [update_changelog_good hv hp]
      show runOnContent nv pr c2 date2 = _
      rw [runOnContent, if_pos (by rw [ha]; rfl)]
    exact ⟨by rw [h]; rfl, hrun2, by rw [hrun2]; rfl, by rw [hrun2]; rfl⟩

theorem claim_C1_witness :
    validate_version (strL "1.2-3.4") = true ∧ strL "42" ≠ [] ∧
    (update_changelog (some (strL "1.2-3.4")) (some (strL "42"))
        (some (strL "# C\n\n## [1.2-3.4] 2025-01-01\n\n[Unreleased]: u\n"))
        (strL "2025-01-01") =
      .skip (strL "Version " ++ strL "1.2-3.4" ++
        strL " already exists in CHANGES.md, skipping update") ∧
      exitCode (update_changelog (some (strL "1.2-3.4")) (some (strL "42"))
        (some (strL "# C\n\n## [1.2-3.4] 2025-01-01\n\n[Unreleased]: u\n"))
        (strL "2025-01-01")) = 0 ∧
      fileAfter (strL "# C\n\n## [1.2-3.4] 2025-01-01\n\n[Unreleased]: u\n")
        (update_changelog (some (strL "1.2-3.4")) (some (strL "42"))
          (some (strL "# C\n\n## [1.2-3.4] 2025-01-01\n\n[Unreleased]: u\n"))
          (strL "2025-01-01")) =
        strL "# C\n\n## [1.2-3.4] 2025-01-01\n\n[Unreleased]: u\n") :=
  ⟨by decide, by decide,
    (claim_C1 (strL "1.2-3.4") (strL "42") (by decide) (by decide)
        (strL "# C\n\n## [1.2-3.4] 2025-01-01\n\n[Unreleased]: u\n")
        (strL "2025-01-01")).1
      (strL "# C\n\n") (strL " 2025-01-01\n\n[Unreleased]: u\n") (by decide)⟩
